import Mathlib

/-!
Shallow embedding of three components of txtx/stacks-core and theorems
checking the specification claims about them:

* the Crockford-32 check-address codec
  (src/stacks-common/src/address/c32.rs);
* the signer-side replicated-slot client
  (src/stacks-signer/src/stacks_client.rs, StacksClient::send_message);
* the v0 block-sign coordinator collection loop
  (src/testnet/stacks-node/src/nakamoto_node/sign_coordinator.rs,
  SignCoordinator::run_sign_v0).

Rust strings are modelled as lists of Unicode code points (List Nat) and
byte vectors as lists of Nat below 256.  Machine integers are Nat, with the
modular, checked or saturating reductions written out where the source
relies on them.  Fallible Rust code returns Except; a Rust panic is
modelled as the value none of an enclosing Option.  Cryptographic
primitives (SHA-256, secp256k1 parsing and verification) are consumed by
the source as black boxes and therefore enter the embedding as function
parameters.  External inputs that the source receives through channels or
HTTP (events, chunk acknowledgements) are supplied as explicit lists.
-/

namespace StacksCore

/-- Decidable equality for Except, needed so that concrete runs of the
embedded functions can be checked by decide. -/
instance {ε α : Type} [DecidableEq ε] [DecidableEq α] : DecidableEq (Except ε α) :=
  fun x y =>
    match x, y with
    | .ok a, .ok b =>
      if h : a = b then .isTrue (by rw [h]) else .isFalse (by intro hc; cases hc; exact h rfl)
    | .error a, .error b =>
      if h : a = b then .isTrue (by rw [h]) else .isFalse (by intro hc; cases hc; exact h rfl)
    | .ok _, .error _ => .isFalse (by intro hc; cases hc)
    | .error _, .ok _ => .isFalse (by intro hc; cases hc)

/-- Errors of the c32 address codec (the variants of the address Error type
raised by c32.rs). -/
inductive C32Error
  | InvalidVersion (v : Nat)
  | InvalidCrockford32
  | BadChecksum (computed : Nat) (expected : Nat)
deriving DecidableEq, Repr

/-- The Crockford-32 alphabet 0123456789ABCDEFGHJKMNPQRSTVWXYZ as code
points (C32_CHARACTERS in c32.rs). -/
def C32_CHARACTERS : List Nat :=
  [48, 49, 50, 51, 52, 53, 54, 55, 56, 57,
   65, 66, 67, 68, 69, 70, 71, 72, 74, 75,
   77, 78, 80, 81, 82, 83, 84, 86, 87, 88, 89, 90]

/-- Indexing into the alphabet, c32_chars[d] in the source.  Every call
site indexes with a 5-bit value, so the default is never taken. -/
def c32CharAt (d : Nat) : Nat := C32_CHARACTERS.getD d 0

/-- C32_CHARACTERS.find(x) in the source: the position of a character in
the alphabet (byte and character positions agree on this ASCII string). -/
def c32Find (c : Nat) : Option Nat := C32_CHARACTERS.findIdx? (fun x => x == c)

/-- State of the byte loop of c32_encode: the emitted digits, the bit
carry, and the number of carried bits.  The source pushes the alphabet
characters c32_chars[value]; the embedding keeps the 5-bit values and
renders them through the injective alphabet map in the last step of
c32_encode, which is the same string. -/
structure EncSt where
  result : List Nat
  carry : Nat
  carry_bits : Nat
deriving DecidableEq, Repr

/-- One iteration of the loop for current_value in input_bytes.iter().rev()
of c32_encode.  Bit masks and shifts of the source become mod and div by
powers of two. -/
def encStep (st : EncSt) (current_value : Nat) : EncSt :=
  let low_bits_to_take := 5 - st.carry_bits
  let low_bits := current_value % 2 ^ low_bits_to_take
  let c32_value := low_bits * 2 ^ st.carry_bits + st.carry
  let result := st.result ++ [c32_value]
  let carry_bits := (8 + st.carry_bits) - 5
  let carry := current_value / 2 ^ (8 - carry_bits)
  if 5 ≤ carry_bits then
    ⟨result ++ [carry % 2 ^ 5], carry / 2 ^ 5, carry_bits - 5⟩
  else
    ⟨result, carry, carry_bits⟩

/-- The pop-while-zero loop shared by c32_encode and c32_decode: remove
the trailing zero entries of the accumulator (at digit level the character
c32_chars[0] is the digit 0). -/
def dropTrailingZeros (l : List Nat) : List Nat :=
  (l.reverse.dropWhile (fun v => v == 0)).reverse

/-- The c32_encode pipeline at digit level: run the byte loop over the
reversed input, push the final partial digit, remove the leading zero
digits of the encoding, append one zero digit per leading zero byte of the
input, and reverse. -/
def c32_encode_digits (input_bytes : List Nat) : List Nat :=
  let st := input_bytes.reverse.foldl encStep ⟨[], 0, 0⟩
  let result := if 0 < st.carry_bits then st.result ++ [st.carry] else st.result
  let result := dropTrailingZeros result
  let result := result ++ List.replicate (input_bytes.takeWhile (fun v => v == 0)).length 0
  result.reverse

/-- c32_encode of c32.rs, producing the code points of the output string. -/
def c32_encode (input_bytes : List Nat) : List Nat :=
  (c32_encode_digits input_bytes).map c32CharAt

/-- Per-character normalization of c32_normalize: ASCII uppercase, then
O to 0, L to 1, I to 1.  The source applies Rust str::to_uppercase, which
agrees with ASCII uppercasing on ASCII input; every reachable call
normalizes a string that already passed an is_ascii check, so the
embedding fixes code points of 128 and above. -/
def normChar (c : Nat) : Nat :=
  let u := if 97 ≤ c ∧ c ≤ 122 then c - 32 else c
  if u = 79 then 48 else if u = 76 then 49 else if u = 73 then 49 else u

/-- c32_normalize of c32.rs. -/
def c32_normalize (input_str : List Nat) : List Nat :=
  input_str.map normChar

/-- The is_ascii test of Rust str: every code point below 128. -/
def isAsciiStr (s : List Nat) : Bool := s.all (fun c => c < 128)

/-- State of the digit loop of c32_decode: the emitted bytes, the bit
carry (a u16 in the source, which never exceeds 4096 here), and the number
of carried bits. -/
structure DecSt where
  result : List Nat
  carry : Nat
  carry_bits : Nat
deriving DecidableEq, Repr

/-- One iteration of the loop for current_5bit in iter_c32_digits of
c32_decode. -/
def decStep (st : DecSt) (current_5bit : Nat) : DecSt :=
  let carry := st.carry + current_5bit * 2 ^ st.carry_bits
  let carry_bits := st.carry_bits + 5
  if 8 ≤ carry_bits then
    ⟨st.result ++ [carry % 2 ^ 8], carry / 2 ^ 8, carry_bits - 8⟩
  else
    ⟨st.result, carry, carry_bits⟩

/-- c32_decode of c32.rs.  Note that the loop restoring the leading zero
bytes walks the characters of the original input_str, not of the
normalized string. -/
def c32_decode (input_str : List Nat) : Except C32Error (List Nat) :=
  if ¬ isAsciiStr input_str then .error .InvalidCrockford32
  else
    let iter_c32_digits_opts := (c32_normalize input_str).reverse.map c32Find
    let iter_c32_digits := iter_c32_digits_opts.filterMap id
    if iter_c32_digits.length ≠ iter_c32_digits_opts.length then
      .error .InvalidCrockford32
    else
      let st := iter_c32_digits.foldl decStep ⟨[], 0, 0⟩
      let result := if 0 < st.carry_bits then st.result ++ [st.carry] else st.result
      let result := dropTrailingZeros result
      let result :=
        result ++ List.replicate (input_str.takeWhile (fun c => c == 48)).length 0
      .ok result.reverse

/-- The double_sha256_checksum black box: some function from byte lists to
byte lists.  The theorems about the check layer quantify over it, assuming
only what the SHA-256 implementation guarantees (four output bytes). -/
abbrev ChecksumFn := List Nat → List Nat

/-- c32_check_encode of c32.rs, parameterized by the checksum black box. -/
def c32_check_encode (checksum : ChecksumFn) (version : Nat) (data : List Nat) :
    Except C32Error (List Nat) :=
  if 32 ≤ version then .error (.InvalidVersion version)
  else
    let check_data := version :: data
    let cs := checksum check_data
    let encoding_data := data ++ cs
    .ok (c32CharAt version :: c32_encode encoding_data)

/-- The little-endian u32 packing of the first four checksum bytes used in
the BadChecksum payload. -/
def checksumToU32 (l : List Nat) : Nat :=
  l.getD 0 0 + l.getD 1 0 * 256 + l.getD 2 0 * 65536 + l.getD 3 0 * 16777216

/-- c32_check_decode of c32.rs.  The outer Option models the two
unreachable panics of the source (split_at and indexing on provably
nonempty data): none is a panic, some is the returned Result. -/
def c32_check_decode (checksum : ChecksumFn) (check_data_unsanitized : List Nat) :
    Option (Except C32Error (Nat × List Nat)) :=
  if ¬ isAsciiStr check_data_unsanitized then some (.error .InvalidCrockford32)
  else if check_data_unsanitized.length < 2 then some (.error .InvalidCrockford32)
  else
    match c32_normalize check_data_unsanitized with
    | [] => none
    | version_char :: data =>
      match c32_decode data with
      | .error e => some (.error e)
      | .ok data_sum_bytes =>
        if data_sum_bytes.length < 5 then some (.error .InvalidCrockford32)
        else
          let data_bytes := data_sum_bytes.take (data_sum_bytes.length - 4)
          let expected_sum := data_sum_bytes.drop (data_sum_bytes.length - 4)
          match c32_decode [version_char] with
          | .error e => some (.error e)
          | .ok version_bytes =>
            let check_data := version_bytes ++ data_bytes
            let computed_sum := checksum check_data
            if computed_sum ≠ expected_sum then
              some (.error (.BadChecksum (checksumToU32 computed_sum)
                (checksumToU32 expected_sum)))
            else
              match check_data with
              | [] => none
              | v :: _ => some (.ok (v, data_bytes))

/-- Number of UTF-8 bytes of a code point (Rust char::len_utf8). -/
def utf8Len (c : Nat) : Nat :=
  if c < 128 then 1 else if c < 2048 then 2 else if c < 65536 then 3 else 4

/-- Rust str::len: the UTF-8 byte length of the string. -/
def byteLen (s : List Nat) : Nat := (s.map utf8Len).sum

/-- c32_address_decode of c32.rs.  The length test is on bytes, and the
slice c32_address_str[1..] is a byte slice: when the first character
occupies more than one byte the slice is not on a character boundary and
the source panics, modelled as none. -/
def c32_address_decode (checksum : ChecksumFn) (c32_address_str : List Nat) :
    Option (Except C32Error (Nat × List Nat)) :=
  if byteLen c32_address_str ≤ 5 then some (.error .InvalidCrockford32)
  else
    match c32_address_str with
    | [] => none
    | c :: rest =>
      if utf8Len c = 1 then c32_check_decode checksum rest else none

/-- c32_address of c32.rs: the character S prepended to the check
encoding. -/
def c32_address (checksum : ChecksumFn) (version : Nat) (data : List Nat) :
    Except C32Error (List Nat) :=
  (c32_check_encode checksum version data).map (fun c32_string => 83 :: c32_string)

/-! Replicated-slot client: StacksClient::send_message of
src/stacks-signer/src/stacks_client.rs. -/

/-- Acknowledgement returned by the stacker-db for a chunk write
(StackerDBChunkAckData of libstackerdb). -/
structure StackerDBChunkAckData where
  accepted : Bool
  reason : Option String
deriving DecidableEq, Repr

/-- A chunk as submitted to the store: slot, version and payload
(StackerDBChunkData restricted to the fields send_message constructs;
the signature over the chunk is a crypto black box that the claims do
not observe). -/
structure StackerDBChunkData where
  slot_id : Nat
  slot_version : Nat
  data : List Nat
deriving DecidableEq, Repr

/-- The ClientError variants reachable from the modelled fragment of
send_message. -/
inductive ClientError
  | putChunkRejected (reason : String)
deriving DecidableEq, Repr

/-- The WSTS message variants, used only to compute the slot offset. -/
inductive WstsMessageKind
  | dkgBegin
  | dkgPrivateBegin
  | dkgEnd
  | dkgPublicShares
  | dkgPrivateShares
  | nonceRequest
  | nonceResponse
  | signatureShareRequest
  | signatureShareResponse
deriving DecidableEq, Repr

/-- SLOTS_PER_USER of stacks_client.rs. -/
def SLOTS_PER_USER : Nat := 10

/-- The slot_id helper of stacks_client.rs: a stable small-integer offset
per message type inside the ten slots of a writer. -/
def slot_id (id : Nat) (message : WstsMessageKind) : Nat :=
  let offset :=
    match message with
    | .dkgBegin => 0
    | .dkgPrivateBegin => 1
    | .dkgEnd => 2
    | .dkgPublicShares => 4
    | .dkgPrivateShares => 5
    | .nonceRequest => 6
    | .nonceResponse => 7
    | .signatureShareRequest => 8
    | .signatureShareResponse => 9
  SLOTS_PER_USER * id + offset

/-- The rejection reason string that triggers a version-bump retry. -/
def slotConflictReason : String := "Data for this slot and version already exist"

/-- Insert or replace a binding in an association list ordered by key;
models both the HashMap slot_versions of the client (observed only
through lookup) and the BTreeMap gathered_signatures of the coordinator
(whose values iterate in key order). -/
def mapInsert : List (Nat × Nat) → Nat → Nat → List (Nat × Nat)
  | [], k, v => [(k, v)]
  | (k0, v0) :: rest, k, v =>
    if k < k0 then (k, v) :: (k0, v0) :: rest
    else if k = k0 then (k, v) :: rest
    else (k0, v0) :: mapInsert rest k v

/-- Result of one send_message call: the value returned to the caller
(none when the acknowledgement oracle is exhausted while the source loop
would still be running), the updated slot_versions cache, and the chunks
submitted to the store in order. -/
structure SendOutcome where
  result : Option (Except ClientError StackerDBChunkAckData)
  slot_versions : List (Nat × Nat)
  submitted : List StackerDBChunkData
deriving DecidableEq, Repr

/-- The loop of StacksClient::send_message.  Each iteration reads the
cached version (defaulting to 0), submits the chunk at cached + 1, writes
the cache, and then inspects the acknowledgement exactly as the source
does.  The store responses are supplied as the list acks. -/
def send_message_loop (slot : Nat) (message_bytes : List Nat)
    (slot_versions : List (Nat × Nat)) (trace : List StackerDBChunkData) :
    List StackerDBChunkAckData → SendOutcome
  | [] => ⟨none, slot_versions, trace⟩
  | chunk_ack :: rest =>
    let slot_version := (slot_versions.lookup slot).getD 0 + 1
    let chunk : StackerDBChunkData := ⟨slot, slot_version, message_bytes⟩
    let slot_versions := mapInsert slot_versions slot slot_version
    let trace := trace ++ [chunk]
    if chunk_ack.accepted then ⟨some (.ok chunk_ack), slot_versions, trace⟩
    else
      match chunk_ack.reason with
      | some reason =>
        if reason = slotConflictReason then
          send_message_loop slot message_bytes slot_versions trace rest
        else ⟨some (.error (.putChunkRejected reason)), slot_versions, trace⟩
      | none => send_message_loop slot message_bytes slot_versions trace rest

/-- StacksClient::send_message: serialize once (the bytes are the
parameter message_bytes), compute the slot, and run the submit loop. -/
def send_message (id : Nat) (message : WstsMessageKind) (message_bytes : List Nat)
    (slot_versions : List (Nat × Nat)) (acks : List StackerDBChunkAckData) : SendOutcome :=
  send_message_loop (slot_id id message) message_bytes slot_versions [] acks

/-! Coordinator: the signature collection loop of
SignCoordinator::run_sign_v0 in sign_coordinator.rs (the prelude of the
function publishes the proposal over HTTP and is handled by external
collaborators; the loop is entered only when that publish succeeded). -/

/-- One entry of the signer_entries map of SignCoordinator: opaque signing
key bytes and the voting weight (NakamotoSignerEntry restricted to the
fields run_sign_v0 reads). -/
structure SignerEntry where
  signing_key : Nat
  weight : Nat
deriving DecidableEq, Repr

/-- Read-only data of one run_sign_v0 round together with the secp256k1
black boxes: parse_pubkey models StacksPublicKey::from_slice and
verify_sig models StacksPublicKey::verify (none is the Err case, some b
the Ok(b) case). -/
structure SignCtx where
  signer_entries : List (Nat × SignerEntry)
  weight_threshold : Nat
  total_weight : Nat
  block_sighash : Nat
  reward_cycle_id : Nat
  parse_pubkey : Nat → Option Nat
  verify_sig : Nat → Nat → Nat → Option Bool

/-- Mutable state of the collection loop, together with the
next_signer_bitvec field of the SignCoordinator struct (a BitVec of
capacity 4000 whose length is the committee size). -/
structure LoopState where
  total_weight_signed : Nat
  total_reject_weight : Nat
  gathered_signatures : List (Nat × Nat)
  next_signer_bitvec : List Bool
deriving DecidableEq, Repr

/-- contains_key on the gathered_signatures map. -/
def btreeContains (m : List (Nat × Nat)) (k : Nat) : Bool :=
  m.any (fun kv => kv.1 == k)

/-- Largest u32 value; checked_add panics above it and saturating_add
clamps to it. -/
def u32Max : Nat := 4294967295

/-- Results of run_sign_v0 observable from the loop: the NakamotoNodeError
variants it raises, the Ok vector of signatures, and the panic of a
checked_add overflow. -/
inductive SignResult
  | ok (signatures : List Nat)
  | signersRejected
  | signerSignatureError (msg : String)
  | signingCoordinatorFailure (msg : String)
  | panicOverflow
deriving DecidableEq, Repr

/-- Outcome of processing one message or one event: continue the loop
with a new state, or leave run_sign_v0 with a result (carrying the state
at the moment of exit, which in the source lives on in the struct). -/
inductive ProcOut
  | cont (st : LoopState)
  | exit (r : SignResult) (st : LoopState)
deriving DecidableEq, Repr

/-- The loop state carried by a processing outcome (the fields of the
SignCoordinator struct and of the local tallies at that point). -/
def ProcOut.state : ProcOut → LoopState
  | .cont st => st
  | .exit _ st => st

/-- The v0 signer message variants dispatched by run_sign_v0; hashes and
signatures are opaque values. -/
inductive SignerMessage
  | blockResponseAccepted (response_hash : Nat) (signature : Nat)
  | blockResponseRejected (signer_signature_hash : Nat)
  | blockProposal
  | blockPushed
  | mockSignature
  | mockProposal
  | mockBlock
deriving DecidableEq, Repr

/-- The fault injection hook; the cfg(not(test)) build returns false. -/
def fault_injection_ignore_signatures : Bool := false

/-- Processing of one (message, slot_id) pair in the for loop of
run_sign_v0 (source lines 816 to 944).  The Rejected arm looks the signer
entry up before comparing hashes; checked_add overflow is the panic
result; the reject termination test uses the saturating sum against
total_weight; the Accepted arm compares hashes first, then resolves the
entry, parses the key, verifies the signature, adds the weight only for a
slot not yet gathered, and records the signature. -/
def processMessage (ctx : SignCtx) (st : LoopState) (message : SignerMessage)
    (slot : Nat) : ProcOut :=
  match message with
  | .blockResponseRejected rejected_hash =>
    match ctx.signer_entries.lookup slot with
    | none => .exit (.signerSignatureError "Signer entry not found") st
    | some signer_entry =>
      if rejected_hash ≠ ctx.block_sighash then .cont st
      else if u32Max < st.total_reject_weight + signer_entry.weight then
        .exit .panicOverflow st
      else
        let total_reject_weight := st.total_reject_weight + signer_entry.weight
        let st1 := { st with total_reject_weight := total_reject_weight }
        if ctx.total_weight < Nat.min (total_reject_weight + ctx.weight_threshold) u32Max then
          .exit .signersRejected st1
        else .cont st1
  | .blockResponseAccepted response_hash signature =>
    if ctx.block_sighash ≠ response_hash then .cont st
    else
      match ctx.signer_entries.lookup slot with
      | none => .exit (.signerSignatureError "Signer entry not found") st
      | some signer_entry =>
        match ctx.parse_pubkey signer_entry.signing_key with
        | none => .exit (.signerSignatureError "Failed to parse signer public key") st
        | some signer_pubkey =>
          match ctx.verify_sig signer_pubkey ctx.block_sighash signature with
          | none => .cont st
          | some false => .cont st
          | some true =>
            if btreeContains st.gathered_signatures slot then
              if fault_injection_ignore_signatures then .cont st
              else
                .cont { st with
                  gathered_signatures := mapInsert st.gathered_signatures slot signature }
            else if u32Max < st.total_weight_signed + signer_entry.weight then
              .exit .panicOverflow st
            else
              let st1 := { st with
                total_weight_signed := st.total_weight_signed + signer_entry.weight }
              if fault_injection_ignore_signatures then .cont st1
              else
                .cont { st1 with
                  gathered_signatures := mapInsert st1.gathered_signatures slot signature }
  | .blockProposal => .cont st
  | .blockPushed => .cont st
  | .mockSignature => .cont st
  | .mockProposal => .cont st
  | .mockBlock => .cont st

/-- The for loop over messages.into_iter().zip(slot_ids), stopping at the
first early return. -/
def processMessages (ctx : SignCtx) (st : LoopState) :
    List (SignerMessage × Nat) → ProcOut
  | [] => .cont st
  | (message, slot) :: rest =>
    match processMessage ctx st message slot with
    | .exit r st1 => .exit r st1
    | .cont st1 => processMessages ctx st1 rest

/-- One event as the loop sees it after the channel delivers it:
an event for a non-signer contract, an event SignerEvent::try_from
rejects, a parsed event of another variant, or a SignerMessages event
carrying the modified slot ids and the parsed messages. -/
inductive RecvEvent
  | nonSigner
  | parseFailure (modified_slots : List Nat)
  | otherVariant (modified_slots : List Nat)
  | signerMessages (modified_slots : List Nat) (signer_set : Nat)
      (messages : List SignerMessage)
deriving DecidableEq, Repr

/-- Processing of one received event in run_sign_v0: contract filtering,
parse filtering, cycle parity filtering, the message loop over the zip
with the modified slot ids, and the threshold check after all messages of
the event (returning the values of the gathered map in key order). -/
def processEvent (ctx : SignCtx) (st : LoopState) : RecvEvent → ProcOut
  | .nonSigner => .cont st
  | .parseFailure _ => .cont st
  | .otherVariant _ => .cont st
  | .signerMessages modified_slots signer_set messages =>
    if signer_set ≠ ctx.reward_cycle_id % 2 then .cont st
    else
      match processMessages ctx st (messages.zip modified_slots) with
      | .exit r st1 => .exit r st1
      | .cont st1 =>
        if ctx.weight_threshold ≤ st1.total_weight_signed then
          .exit (.ok (st1.gathered_signatures.map Prod.snd)) st1
        else .cont st1

/-- What one iteration of the while loop observes: the chainstate query
for the proposed block (some signatures when a stored copy with a
signer_signature vector is found), then the channel receive. -/
inductive RecvOutcome
  | timeout
  | disconnected
  | event (e : RecvEvent)
deriving DecidableEq, Repr

/-- External input of one loop iteration. -/
structure LoopStep where
  stored_block : Option (List Nat)
  recv : RecvOutcome
deriving DecidableEq, Repr

/-- The while loop of run_sign_v0 over a list of iteration inputs.
Exhausting the list models reaching signing_round_timeout, which returns
the timeout error of the source; the final LoopState exposes the fields
of the SignCoordinator struct after the call. -/
def run_sign_v0_loop (ctx : SignCtx) (st : LoopState) :
    List LoopStep → SignResult × LoopState
  | [] => (.signerSignatureError "Timed out waiting for group signature", st)
  | step :: rest =>
    match step.stored_block with
    | some signatures => (.ok signatures, st)
    | none =>
      match step.recv with
      | .timeout => run_sign_v0_loop ctx st rest
      | .disconnected =>
        (.signingCoordinatorFailure "StackerDB event receiver disconnected", st)
      | .event e =>
        match processEvent ctx st e with
        | .exit r st1 => (r, st1)
        | .cont st1 => run_sign_v0_loop ctx st1 rest

/-- The bitvec maintenance block of begin_sign_v1 (source lines 515 to
527), which is the only writer of next_signer_bitvec: for each modified
slot, convert to u16 and set the bit; a slot above the u16 range or an
out-of-range set is logged and skipped without aborting. -/
def v1SetBit (bv : List Bool) (slot : Nat) : List Bool :=
  if slot < 65536 then
    if slot < bv.length then bv.set slot true else bv
  else bv

/-- The modified_slots.iter().for_each of the begin_sign_v1 bitvec
update. -/
def v1UpdateBitvec (bv : List Bool) (modified_slots : List Nat) : List Bool :=
  modified_slots.foldl v1SetBit bv

/-! Concrete instantiations of the black boxes, used by the witnesses. -/

/-- A concrete stand-in for StacksPublicKey::from_slice that accepts every
key. -/
def trivialParse : Nat → Option Nat := fun k => some k

/-- A concrete stand-in for signature verification that accepts every
signature. -/
def trivialVerify : Nat → Nat → Nat → Option Bool := fun _ _ _ => some true

/-- A concrete stand-in for double_sha256_checksum with four fixed output
bytes. -/
def fixedChecksum : ChecksumFn := fun _ => [1, 2, 3, 4]

/-- The five-signer committee of the specification examples: weights
[10, 10, 10, 10, 10], total weight 50, voting threshold 35. -/
def ctxFive : SignCtx :=
  { signer_entries :=
      [(0, ⟨100, 10⟩), (1, ⟨101, 10⟩), (2, ⟨102, 10⟩), (3, ⟨103, 10⟩), (4, ⟨104, 10⟩)],
    weight_threshold := 35,
    total_weight := 50,
    block_sighash := 5,
    reward_cycle_id := 0,
    parse_pubkey := trivialParse,
    verify_sig := trivialVerify }

/-- Fresh loop state for a five-signer committee: zero tallies, no
gathered signatures, all bitvec bits clear. -/
def stFive : LoopState := ⟨0, 0, [], List.replicate 5 false⟩

/-! Helper lemmas about the coordinator loop. -/

/-- Message processing never touches the next_signer_bitvec field:
run_sign_v0 contains no write to it. -/
theorem processMessage_bitvec (ctx : SignCtx) (st : LoopState) (m : SignerMessage)
    (slot : Nat) :
    (processMessage ctx st m slot).state.next_signer_bitvec = st.next_signer_bitvec := by
  cases m <;> simp only [processMessage] <;> (repeat first | split | rfl)

/-- The message loop preserves next_signer_bitvec. -/
theorem processMessages_bitvec (pairs : List (SignerMessage × Nat)) :
    ∀ (ctx : SignCtx) (st : LoopState),
      (processMessages ctx st pairs).state.next_signer_bitvec = st.next_signer_bitvec := by
  induction pairs with
  | nil => intro ctx st; rfl
  | cons p rest ih =>
    intro ctx st
    obtain ⟨m, slot⟩ := p
    have hm := processMessage_bitvec ctx st m slot
    simp only [processMessages]
    cases hpm : processMessage ctx st m slot with
    | exit r st1 =>
      rw [hpm] at hm
      simp only [ProcOut.state] at hm
      simpa [ProcOut.state] using hm
    | cont st1 =>
      rw [hpm] at hm
      simp only [ProcOut.state] at hm
      rw [ih ctx st1, hm]

/-- Event processing preserves next_signer_bitvec. -/
theorem processEvent_bitvec (ctx : SignCtx) (st : LoopState) (e : RecvEvent) :
    (processEvent ctx st e).state.next_signer_bitvec = st.next_signer_bitvec := by
  cases e with
  | nonSigner => rfl
  | parseFailure _ => rfl
  | otherVariant _ => rfl
  | signerMessages slots sset msgs =>
    cases hpm : processMessages ctx st (msgs.zip slots) with
    | exit r st1 =>
      have hm := processMessages_bitvec (msgs.zip slots) ctx st
      rw [hpm] at hm
      simp only [ProcOut.state] at hm
      simp only [processEvent, hpm]
      split
      · rfl
      · simpa [ProcOut.state] using hm
    | cont st1 =>
      have hm := processMessages_bitvec (msgs.zip slots) ctx st
      rw [hpm] at hm
      simp only [ProcOut.state] at hm
      simp only [processEvent, hpm]
      split
      · rfl
      · split <;> simpa [ProcOut.state] using hm

/-- The whole run_sign_v0 loop preserves next_signer_bitvec. -/
theorem run_sign_v0_loop_bitvec (steps : List LoopStep) :
    ∀ (ctx : SignCtx) (st : LoopState),
      (run_sign_v0_loop ctx st steps).2.next_signer_bitvec = st.next_signer_bitvec := by
  induction steps with
  | nil => intro ctx st; rfl
  | cons step rest ih =>
    intro ctx st
    cases hsb : step.stored_block with
    | some sigs => simp [run_sign_v0_loop, hsb]
    | none =>
      cases hrv : step.recv with
      | timeout =>
        simp only [run_sign_v0_loop, hsb, hrv]
        exact ih ctx st
      | disconnected => simp [run_sign_v0_loop, hsb, hrv]
      | event e =>
        cases hpe : processEvent ctx st e with
        | exit r st1 =>
          have he := processEvent_bitvec ctx st e
          rw [hpe] at he
          simp only [ProcOut.state] at he
          simp only [run_sign_v0_loop, hsb, hrv, hpe]
          exact he
        | cont st1 =>
          have he := processEvent_bitvec ctx st e
          rw [hpe] at he
          simp only [ProcOut.state] at he
          simp only [run_sign_v0_loop, hsb, hrv, hpe]
          rw [ih ctx st1, he]

/-- Setting an in-range bit makes reading it give true. -/
theorem getD_set_self : ∀ (l : List Bool) (i : Nat), i < l.length →
    (l.set i true).getD i false = true := by
  intro l
  induction l with
  | nil => intro i h; simp at h
  | cons a t ih =>
    intro i h
    cases i with
    | zero => rfl
    | succ n =>
      simp only [List.set_cons_succ, List.getD_cons_succ]
      exact ih n (by simpa using h)

/-- Setting any bit to true never clears another true bit. -/
theorem getD_set_mono : ∀ (l : List Bool) (i j : Nat), l.getD i false = true →
    (l.set j true).getD i false = true := by
  intro l
  induction l with
  | nil => intro i j h; simp at h
  | cons a t ih =>
    intro i j h
    cases j with
    | zero =>
      cases i with
      | zero => rfl
      | succ n => simpa using h
    | succ m =>
      cases i with
      | zero => simpa using h
      | succ n =>
        simp only [List.set_cons_succ, List.getD_cons_succ] at h ⊢
        exact ih n m h

/-- The v1 bitvec update preserves the length. -/
theorem v1SetBit_length (bv : List Bool) (slot : Nat) :
    (v1SetBit bv slot).length = bv.length := by
  unfold v1SetBit
  split
  · split
    · simp
    · rfl
  · rfl

/-- The v1 bitvec update never clears a true bit. -/
theorem v1SetBit_mono (bv : List Bool) (slot i : Nat) (h : bv.getD i false = true) :
    (v1SetBit bv slot).getD i false = true := by
  unfold v1SetBit
  split
  · split
    · exact getD_set_mono bv i slot h
    · exact h
  · exact h

/-- The v1 bitvec update sets the requested in-range bit. -/
theorem v1SetBit_sets (bv : List Bool) (slot : Nat) (hu : slot < 65536)
    (hl : slot < bv.length) : (v1SetBit bv slot).getD slot false = true := by
  unfold v1SetBit
  rw [if_pos hu, if_pos hl]
  exact getD_set_self bv slot hl

/-- Folding the v1 bit setter never clears a true bit. -/
theorem v1UpdateBitvec_mono : ∀ (slots : List Nat) (bv : List Bool) (i : Nat),
    bv.getD i false = true → (v1UpdateBitvec bv slots).getD i false = true := by
  intro slots
  induction slots with
  | nil => intro bv i h; exact h
  | cons s rest ih =>
    intro bv i h
    exact ih (v1SetBit bv s) i (v1SetBit_mono bv s i h)

/-- The fold preserves the bitvec length. -/
theorem v1UpdateBitvec_length : ∀ (slots : List Nat) (bv : List Bool),
    (v1UpdateBitvec bv slots).length = bv.length := by
  intro slots
  induction slots with
  | nil => intro bv; rfl
  | cons s rest ih =>
    intro bv
    simp only [v1UpdateBitvec, List.foldl_cons]
    rw [show List.foldl v1SetBit (v1SetBit bv s) rest = v1UpdateBitvec (v1SetBit bv s) rest
        from rfl]
    rw [ih (v1SetBit bv s), v1SetBit_length]

/-- Every modified slot that fits the u16 conversion and the bitvec
length has its bit set after the begin_sign_v1 update. -/
theorem v1UpdateBitvec_sets : ∀ (bv : List Bool) (slots : List Nat) (slot : Nat),
    slot ∈ slots → slot < 65536 → slot < bv.length →
    (v1UpdateBitvec bv slots).getD slot false = true := by
  intro bv slots
  induction slots generalizing bv with
  | nil => intro slot h; cases h
  | cons s rest ih =>
    intro slot hmem hu hl
    simp only [v1UpdateBitvec, List.foldl_cons]
    rw [show List.foldl v1SetBit (v1SetBit bv s) rest = v1UpdateBitvec (v1SetBit bv s) rest
        from rfl]
    rcases List.mem_cons.mp hmem with heq | hrest
    · subst heq
      exact v1UpdateBitvec_mono rest (v1SetBit bv slot) slot (v1SetBit_sets bv slot hu hl)
    · exact ih (v1SetBit bv s) slot hrest hu (by rw [v1SetBit_length]; exact hl)

/-! Claims about the coordinator. -/

/-- C1 counterexample: in run_sign_v0, two Rejected messages carrying the
same slot id 0 (weight 10, committee ctxFive) add that weight twice: the
reject tally reaches 20, not 10, and with threshold 35 over total weight
50 the round even terminates with SignersRejected, which under the claim
(each signer counted at most once) would not happen, since 10 + 35 is not
above 50.  The Rejected arm of the source, unlike the Accepted arm, has no
membership test before adding the weight. -/
theorem claim_C1_counterexample :
    processEvent ctxFive stFive
        (.signerMessages [0, 0] 0 [.blockResponseRejected 5, .blockResponseRejected 5])
      = .exit .signersRejected (LoopState.mk 0 20 [] (List.replicate 5 false)) ∧
    ProcOut.exit SignResult.signersRejected (LoopState.mk 0 20 [] (List.replicate 5 false))
      ≠ .cont (LoopState.mk 0 10 [] (List.replicate 5 false)) := by
  constructor
  · decide
  · decide

/-- C1 amended: in a single run_sign_v0 round, accept weight counts each
slot at most once (a duplicate Accepted message from a slot already in
gathered_signatures leaves the accept tally unchanged), but reject weight
is counted per message: every Rejected message matching the proposed block
hash from a slot with a signer entry adds that entry weight to the reject
tally again, whether or not the slot rejected before. -/
theorem claim_C1_amended :
    (∀ (ctx : SignCtx) (st : LoopState) (h sig slot : Nat),
      btreeContains st.gathered_signatures slot = true →
      (processMessage ctx st (.blockResponseAccepted h sig) slot).state.total_weight_signed
        = st.total_weight_signed) ∧
    (∀ (ctx : SignCtx) (st : LoopState) (slot : Nat) (entry : SignerEntry),
      ctx.signer_entries.lookup slot = some entry →
      st.total_reject_weight + entry.weight ≤ u32Max →
      Nat.min (st.total_reject_weight + entry.weight + ctx.weight_threshold) u32Max
        ≤ ctx.total_weight →
      processMessage ctx st (.blockResponseRejected ctx.block_sighash) slot =
        .cont { st with total_reject_weight := st.total_reject_weight + entry.weight }) := by
  constructor
  · intro ctx st h sig slot hmem
    simp only [processMessage]
    split
    · rfl
    · cases ctx.signer_entries.lookup slot with
      | none => rfl
      | some entry =>
        try dsimp only
        cases ctx.parse_pubkey entry.signing_key with
        | none => rfl
        | some pk =>
          try dsimp only
          cases ctx.verify_sig pk ctx.block_sighash sig with
          | none => rfl
          | some b =>
            try dsimp only
            cases b with
            | false => rfl
            | true => simp [fault_injection_ignore_signatures, ProcOut.state]
  · intro ctx st slot entry hlk hno hle
    simp only [processMessage, hlk]
    rw [if_neg (by simp), if_neg (by omega), if_neg (by omega)]

/-- C1 amended witness: slot 0 of the five-signer committee.  A duplicate
Accepted message for a slot already gathered leaves the accept tally at
10, and a first Rejected message from slot 1 moves the reject tally from
0 to 10. -/
theorem claim_C1_witness :
    (processMessage ctxFive (LoopState.mk 10 0 [(0, 1000)] (List.replicate 5 false))
        (.blockResponseAccepted 5 1001) 0).state.total_weight_signed = 10 ∧
    processMessage ctxFive stFive (.blockResponseRejected 5) 1 =
      .cont (LoopState.mk 0 10 [] (List.replicate 5 false)) := by
  constructor
  · exact claim_C1_amended.1 ctxFive (LoopState.mk 10 0 [(0, 1000)] (List.replicate 5 false))
      5 1001 0 (by decide)
  · exact claim_C1_amended.2 ctxFive stFive 1 ⟨101, 10⟩ (by decide) (by decide) (by decide)

/-- C2: in run_sign_v0, when processing all messages of a received
SignerMessages event for the right cycle parity completes without an early
exit and leaves the accept tally at or above the voting threshold, the
loop returns Ok with exactly the gathered signatures (the values of the
slot-keyed map) and consumes none of the remaining events, whatever they
are. -/
theorem claim_C2 :
    ∀ (ctx : SignCtx) (st st1 : LoopState) (modified_slots : List Nat)
      (messages : List SignerMessage) (rest : List LoopStep),
      processMessages ctx st (messages.zip modified_slots) = .cont st1 →
      ctx.weight_threshold ≤ st1.total_weight_signed →
      run_sign_v0_loop ctx st
          (⟨none, .event (.signerMessages modified_slots (ctx.reward_cycle_id % 2) messages)⟩
            :: rest)
        = (.ok (st1.gathered_signatures.map Prod.snd), st1) := by
  intro ctx st st1 modified_slots messages rest hmsgs hthr
  simp only [run_sign_v0_loop, processEvent, hmsgs]
  rw [if_neg (by simp), if_pos hthr]

/-- C2 witness: the specification example.  Committee weights
[10, 10, 10, 10, 10], threshold 35: one event with four valid accepts
(slots 0 to 3) reaches weight 40 and the loop returns exactly those four
signatures even though a further event with a fifth accept is still
queued. -/
theorem claim_C2_witness :
    run_sign_v0_loop ctxFive stFive
        [⟨none, .event (.signerMessages [0, 1, 2, 3] 0
            [.blockResponseAccepted 5 1000, .blockResponseAccepted 5 1001,
             .blockResponseAccepted 5 1002, .blockResponseAccepted 5 1003])⟩,
         ⟨none, .event (.signerMessages [4] 0 [.blockResponseAccepted 5 1004])⟩]
      = (.ok [1000, 1001, 1002, 1003],
         LoopState.mk 40 0 [(0, 1000), (1, 1001), (2, 1002), (3, 1003)]
           (List.replicate 5 false)) :=
  claim_C2 ctxFive stFive
    (LoopState.mk 40 0 [(0, 1000), (1, 1001), (2, 1002), (3, 1003)] (List.replicate 5 false))
    [0, 1, 2, 3]
    [.blockResponseAccepted 5 1000, .blockResponseAccepted 5 1001,
     .blockResponseAccepted 5 1002, .blockResponseAccepted 5 1003]
    [⟨none, .event (.signerMessages [4] 0 [.blockResponseAccepted 5 1004])⟩]
    (by decide) (by decide)

/-- C3 counterexample: a Rejected message whose hash differs from the
proposed block hash (6 instead of 5) arriving from slot 9, which has no
signer entry in ctxFive, is not ignored: run_sign_v0 exits with
SignerSignatureError, because the Rejected arm resolves the signer entry
before comparing hashes. -/
theorem claim_C3_counterexample :
    processMessage ctxFive stFive (.blockResponseRejected 6) 9
      = .exit (.signerSignatureError "Signer entry not found") stFive ∧
    ProcOut.exit (SignResult.signerSignatureError "Signer entry not found") stFive
      ≠ .cont stFive := by
  constructor
  · decide
  · decide

/-- C3 amended: processing a Rejected message in run_sign_v0 from a slot
that has a signer entry terminates the round immediately with
SignersRejected as soon as the u32-saturating sum of the updated reject
tally and the threshold exceeds the total weight; a Rejected message with
a differing hash from a slot with a signer entry is ignored and changes no
tally; but a Rejected message from a slot with no signer entry terminates
the round with SignerSignatureError regardless of its hash. -/
theorem claim_C3_amended :
    (∀ (ctx : SignCtx) (st : LoopState) (slot : Nat) (entry : SignerEntry),
      ctx.signer_entries.lookup slot = some entry →
      st.total_reject_weight + entry.weight ≤ u32Max →
      ctx.total_weight
          < Nat.min (st.total_reject_weight + entry.weight + ctx.weight_threshold) u32Max →
      processMessage ctx st (.blockResponseRejected ctx.block_sighash) slot =
        .exit .signersRejected
          { st with total_reject_weight := st.total_reject_weight + entry.weight }) ∧
    (∀ (ctx : SignCtx) (st : LoopState) (slot rejected_hash : Nat) (entry : SignerEntry),
      ctx.signer_entries.lookup slot = some entry →
      rejected_hash ≠ ctx.block_sighash →
      processMessage ctx st (.blockResponseRejected rejected_hash) slot = .cont st) ∧
    (∀ (ctx : SignCtx) (st : LoopState) (slot rejected_hash : Nat),
      ctx.signer_entries.lookup slot = none →
      processMessage ctx st (.blockResponseRejected rejected_hash) slot =
        .exit (.signerSignatureError "Signer entry not found") st) := by
  refine ⟨?_, ?_, ?_⟩
  · intro ctx st slot entry hlk hno hgt
    simp only [processMessage, hlk]
    rw [if_neg (by simp), if_neg (by omega), if_pos (by omega)]
  · intro ctx st slot rejected_hash entry hlk hne
    simp only [processMessage, hlk]
    rw [if_pos hne]
  · intro ctx st slot rejected_hash hlk
    simp only [processMessage, hlk]

/-- C3 amended witness: in the five-signer committee, a second matching
reject from slot 1 (tally 10 to 20, 20 + 35 above 50) terminates with
SignersRejected; a wrong-hash reject from slot 2 is ignored; a reject
from the entryless slot 9 raises SignerSignatureError. -/
theorem claim_C3_witness :
    processMessage ctxFive (LoopState.mk 0 10 [] (List.replicate 5 false))
        (.blockResponseRejected 5) 1
      = .exit .signersRejected (LoopState.mk 0 20 [] (List.replicate 5 false)) ∧
    processMessage ctxFive stFive (.blockResponseRejected 7) 2 = .cont stFive ∧
    processMessage ctxFive stFive (.blockResponseRejected 5) 9 =
      .exit (.signerSignatureError "Signer entry not found") stFive := by
  refine ⟨?_, ?_, ?_⟩
  · exact claim_C3_amended.1 ctxFive (LoopState.mk 0 10 [] (List.replicate 5 false)) 1
      ⟨101, 10⟩ (by decide) (by decide) (by decide)
  · exact claim_C3_amended.2.1 ctxFive stFive 2 7 ⟨102, 10⟩ (by decide) (by decide)
  · exact claim_C3_amended.2.2 ctxFive stFive 9 5 (by decide)

/-- C5 counterexample: a v0 round that receives a signer event modifying
slot 0 (well below 4000) ends with bit 0 of next_signer_bitvec still
false: run_sign_v0 never writes the bitvec, so the claimed setting of the
corresponding bit does not happen. -/
theorem claim_C5_counterexample :
    run_sign_v0_loop ctxFive stFive
        [⟨none, .event (.signerMessages [0] 0 [.blockResponseAccepted 5 1000])⟩]
      = (.signerSignatureError "Timed out waiting for group signature",
         LoopState.mk 10 0 [(0, 1000)] (List.replicate 5 false)) ∧
    (List.replicate 5 false).getD 0 false ≠ true := by
  constructor
  · decide
  · decide

/-- C5 amended: run_sign_v0 never modifies next_signer_bitvec: after any
sequence of loop iterations the bitvec equals its initial value.  The
per-event bitvec maintenance lives only in begin_sign_v1, whose update
sets the bit of every modified slot id that fits in a u16 and lies below
the bitvec length; slot ids outside those bounds are logged and skipped
there rather than aborting. -/
theorem claim_C5_amended :
    (∀ (ctx : SignCtx) (st : LoopState) (steps : List LoopStep),
      (run_sign_v0_loop ctx st steps).2.next_signer_bitvec = st.next_signer_bitvec) ∧
    (∀ (bv : List Bool) (modified_slots : List Nat) (slot : Nat),
      slot ∈ modified_slots → slot < 65536 → slot < bv.length →
      (v1UpdateBitvec bv modified_slots).getD slot false = true) := by
  constructor
  · intro ctx st steps
    exact run_sign_v0_loop_bitvec steps ctx st
  · intro bv modified_slots slot hmem hu16 hlen
    exact v1UpdateBitvec_sets bv modified_slots slot hmem hu16 hlen

/-- C5 amended witness: a v0 run over one event keeps the all-false
bitvec of stFive, while the v1 updater applied to modified slots [0, 3]
sets bit 3 of a five-bit bitvec. -/
theorem claim_C5_witness :
    ((run_sign_v0_loop ctxFive stFive
        [⟨none, .event (.signerMessages [1] 0 [.blockResponseAccepted 5 1001])⟩]).2).next_signer_bitvec
      = stFive.next_signer_bitvec ∧
    (v1UpdateBitvec (List.replicate 5 false) [0, 3]).getD 3 false = true := by
  constructor
  · exact claim_C5_amended.1 ctxFive stFive
      [⟨none, .event (.signerMessages [1] 0 [.blockResponseAccepted 5 1001])⟩]
  · exact claim_C5_amended.2 (List.replicate 5 false) [0, 3] 3 (by decide) (by decide)
      (by decide)

/-! Claims about the replicated-slot client. -/

/-- Looking a key up right after inserting it yields the inserted value. -/
theorem lookup_mapInsert : ∀ (l : List (Nat × Nat)) (k v : Nat),
    (mapInsert l k v).lookup k = some v := by
  intro l
  induction l with
  | nil => intro k v; simp [mapInsert, List.lookup]
  | cons p rest ih =>
    intro k v
    obtain ⟨k0, v0⟩ := p
    simp only [mapInsert]
    split
    · simp [List.lookup]
    · split
      · simp [List.lookup]
      · rename_i hlt heq
        have hne : (k == k0) = false := by
          simp only [beq_eq_false_iff_ne]
          exact heq
        simp [List.lookup, hne, ih]

/-- Every chunk already submitted when the send loop is entered stays at
the front of the final submit trace. -/
theorem send_message_loop_submitted_prefix :
    ∀ (acks : List StackerDBChunkAckData) (slot : Nat) (bytes : List Nat)
      (sv : List (Nat × Nat)) (tr : List StackerDBChunkData),
      ∃ tr2, (send_message_loop slot bytes sv tr acks).submitted = tr ++ tr2 := by
  intro acks
  induction acks with
  | nil =>
    intro slot bytes sv tr
    exact ⟨[], by simp [send_message_loop]⟩
  | cons a rest ih =>
    intro slot bytes sv tr
    cases hacc : a.accepted with
    | true =>
      refine ⟨[⟨slot, (sv.lookup slot).getD 0 + 1, bytes⟩], ?_⟩
      simp [send_message_loop, hacc]
    | false =>
      cases hr : a.reason with
      | none =>
        obtain ⟨tr2, h⟩ := ih slot bytes (mapInsert sv slot ((sv.lookup slot).getD 0 + 1))
          (tr ++ [⟨slot, (sv.lookup slot).getD 0 + 1, bytes⟩])
        refine ⟨⟨slot, (sv.lookup slot).getD 0 + 1, bytes⟩ :: tr2, ?_⟩
        simp [send_message_loop, hacc, hr, h]
      | some reason =>
        by_cases hc : reason = slotConflictReason
        · obtain ⟨tr2, h⟩ := ih slot bytes (mapInsert sv slot ((sv.lookup slot).getD 0 + 1))
            (tr ++ [⟨slot, (sv.lookup slot).getD 0 + 1, bytes⟩])
          refine ⟨⟨slot, (sv.lookup slot).getD 0 + 1, bytes⟩ :: tr2, ?_⟩
          simp [send_message_loop, hacc, hr, hc, h]
        · refine ⟨[⟨slot, (sv.lookup slot).getD 0 + 1, bytes⟩], ?_⟩
          simp [send_message_loop, hacc, hr, hc]

/-- The head of the submit trace of a loop entered with one chunk already
submitted is that chunk. -/
theorem send_message_loop_head (sv2 : List (Nat × Nat))
    (acks : List StackerDBChunkAckData) (c : StackerDBChunkData) (slot : Nat)
    (bts : List Nat) :
    (send_message_loop slot bts sv2 [c] acks).submitted.head? = some c := by
  obtain ⟨tr2, h⟩ := send_message_loop_submitted_prefix acks slot bts sv2 [c]
  rw [h]
  rfl

/-- C7: versions climb by one across and inside send_message calls.  With
the cached version v0 for the computed slot, a single version-conflict
rejection followed by an acceptance makes the call submit exactly two
chunks with the same payload at versions v0 + 1 and v0 + 2 and return the
second, accepted acknowledgement; and the next send_message call to the
same slot, whatever acknowledgements it gets, submits its first chunk at
version v0 + 3, one above the last accepted version. -/
theorem claim_C7 :
    ∀ (id : Nat) (m : WstsMessageKind) (bytes bytes2 : List Nat)
      (sv : List (Nat × Nat)) (a ack2 : StackerDBChunkAckData)
      (rest2 : List StackerDBChunkAckData),
      a.accepted = true →
      send_message id m bytes sv [⟨false, some slotConflictReason⟩, a] =
        ⟨some (.ok a),
         mapInsert (mapInsert sv (slot_id id m) ((sv.lookup (slot_id id m)).getD 0 + 1))
           (slot_id id m) ((sv.lookup (slot_id id m)).getD 0 + 1 + 1),
         [⟨slot_id id m, (sv.lookup (slot_id id m)).getD 0 + 1, bytes⟩,
          ⟨slot_id id m, (sv.lookup (slot_id id m)).getD 0 + 1 + 1, bytes⟩]⟩ ∧
      (send_message id m bytes2
          (mapInsert (mapInsert sv (slot_id id m) ((sv.lookup (slot_id id m)).getD 0 + 1))
            (slot_id id m) ((sv.lookup (slot_id id m)).getD 0 + 1 + 1))
          (ack2 :: rest2)).submitted.head? =
        some ⟨slot_id id m, (sv.lookup (slot_id id m)).getD 0 + 1 + 1 + 1, bytes2⟩ := by
  intro id m bytes bytes2 sv a ack2 rest2 ha
  constructor
  · simp [send_message, send_message_loop, slotConflictReason, ha, lookup_mapInsert]
  · cases hacc : ack2.accepted with
    | true =>
      simp [send_message, send_message_loop, lookup_mapInsert, hacc]
    | false =>
      cases hr : ack2.reason with
      | none =>
        simp only [send_message, send_message_loop, lookup_mapInsert, Option.getD_some,
          List.nil_append, hacc, hr, Bool.false_eq_true, if_false]
        exact send_message_loop_head _ rest2 _ _ _
      | some reason =>
        by_cases hc : reason = slotConflictReason
        · simp only [send_message, send_message_loop, lookup_mapInsert, Option.getD_some,
            List.nil_append, hacc, hr, Bool.false_eq_true, if_false, hc, if_pos]
          exact send_message_loop_head _ rest2 _ _ _
        · simp only [send_message, send_message_loop, lookup_mapInsert, Option.getD_some,
            List.nil_append, hacc, hr, Bool.false_eq_true, if_false, hc]
          rfl

/-- C7 witness: writer 1, message kind DkgBegin (slot 10), empty cache.
One conflict at version 1 leads to an accepted retry at version 2 with
the same payload, returned to the caller; the follow-up call submits at
version 3. -/
theorem claim_C7_witness :
    send_message 1 .dkgBegin [7, 8] [] [⟨false, some slotConflictReason⟩, ⟨true, none⟩] =
      ⟨some (.ok ⟨true, none⟩),
       mapInsert (mapInsert [] (slot_id 1 .dkgBegin) ((List.lookup (slot_id 1 .dkgBegin) []).getD 0 + 1))
         (slot_id 1 .dkgBegin) ((List.lookup (slot_id 1 .dkgBegin) []).getD 0 + 1 + 1),
       [⟨slot_id 1 .dkgBegin, (List.lookup (slot_id 1 .dkgBegin) []).getD 0 + 1, [7, 8]⟩,
        ⟨slot_id 1 .dkgBegin, (List.lookup (slot_id 1 .dkgBegin) []).getD 0 + 1 + 1, [7, 8]⟩]⟩ ∧
    (send_message 1 .dkgBegin [9]
        (mapInsert (mapInsert [] (slot_id 1 .dkgBegin) ((List.lookup (slot_id 1 .dkgBegin) []).getD 0 + 1))
          (slot_id 1 .dkgBegin) ((List.lookup (slot_id 1 .dkgBegin) []).getD 0 + 1 + 1))
        [⟨true, none⟩]).submitted.head? =
      some ⟨slot_id 1 .dkgBegin, (List.lookup (slot_id 1 .dkgBegin) []).getD 0 + 1 + 1 + 1, [9]⟩ :=
  claim_C7 1 .dkgBegin [7, 8] [9] [] ⟨true, none⟩ ⟨true, none⟩ [] rfl

/-- C9: a chunk rejection whose reason is anything other than the version
conflict string makes send_message return PutChunkRejected with that very
reason, after exactly one submitted chunk (no retry), whatever
acknowledgements would have followed. -/
theorem claim_C9 :
    ∀ (id : Nat) (m : WstsMessageKind) (bytes : List Nat) (sv : List (Nat × Nat))
      (reason : String) (rest : List StackerDBChunkAckData),
      reason ≠ slotConflictReason →
      send_message id m bytes sv (⟨false, some reason⟩ :: rest) =
        ⟨some (.error (.putChunkRejected reason)),
         mapInsert sv (slot_id id m) ((sv.lookup (slot_id id m)).getD 0 + 1),
         [⟨slot_id id m, (sv.lookup (slot_id id m)).getD 0 + 1, bytes⟩]⟩ := by
  intro id m bytes sv reason rest hne
  simp [send_message, send_message_loop, hne]

/-- C9 witness: writer 0, message kind DkgEnd (slot 2), a rejection with
reason "quota exceeded" surfaces verbatim after a single submission. -/
theorem claim_C9_witness :
    send_message 0 .dkgEnd [5] [] (⟨false, some "quota exceeded"⟩ :: [⟨true, none⟩]) =
      ⟨some (.error (.putChunkRejected "quota exceeded")),
       mapInsert [] (slot_id 0 .dkgEnd) ((List.lookup (slot_id 0 .dkgEnd) []).getD 0 + 1),
       [⟨slot_id 0 .dkgEnd, (List.lookup (slot_id 0 .dkgEnd) []).getD 0 + 1, [5]⟩]⟩ :=
  claim_C9 0 .dkgEnd [5] [] "quota exceeded" [⟨true, none⟩] (by decide)

/-! Claims about the codec: non-ASCII handling, first-character handling,
normalization. -/

/-- Any input containing a code point of 128 or more fails the is_ascii
test. -/
theorem isAsciiStr_false_of_mem {s : List Nat} (h : ∃ c ∈ s, 128 ≤ c) :
    ¬ isAsciiStr s = true := by
  obtain ⟨c, hc, hge⟩ := h
  simp only [isAsciiStr, List.all_eq_true]
  intro hall
  have := hall c hc
  simp at this
  omega

/-- c32_check_decode rejects every non-ASCII input before any other
processing. -/
theorem c32_check_decode_nonascii (checksum : ChecksumFn) (s : List Nat)
    (h : ∃ c ∈ s, 128 ≤ c) :
    c32_check_decode checksum s = some (.error .InvalidCrockford32) := by
  have hna := isAsciiStr_false_of_mem h
  simp [c32_check_decode, hna]

/-- The byte length of a cons. -/
theorem byteLen_cons (c : Nat) (s : List Nat) :
    byteLen (c :: s) = utf8Len c + byteLen s := by
  simp [byteLen]

/-- ASCII code points occupy one UTF-8 byte. -/
theorem utf8Len_ascii {c : Nat} (h : c < 128) : utf8Len c = 1 := by
  simp [utf8Len, h]

/-- C8 counterexample: the three-character string of U+03A9 (code point
937, two UTF-8 bytes each, so byte length 6, above the length cut) makes
c32_address_decode panic: the byte slice at index 1 is not on a character
boundary.  The result is the panic value none, not the claimed
InvalidCrockford32 error. -/
theorem claim_C8_counterexample :
    c32_address_decode fixedChecksum [937, 937, 937] = none ∧
    (none : Option (Except C32Error (Nat × List Nat)))
      ≠ some (.error .InvalidCrockford32) := by
  constructor
  · decide
  · decide

/-- C8 amended: c32_check_decode returns InvalidCrockford32 on every
input containing a non-ASCII code point, without consulting the checksum;
and c32_address_decode does so on every input of byte length above 5
whose first character is ASCII and which contains a non-ASCII code point.
(When the first character itself is not ASCII the function instead panics
on the byte slice, as the counterexample shows.) -/
theorem claim_C8_amended :
    (∀ (checksum : ChecksumFn) (s : List Nat), (∃ c ∈ s, 128 ≤ c) →
      c32_check_decode checksum s = some (.error .InvalidCrockford32)) ∧
    (∀ (checksum : ChecksumFn) (c : Nat) (s : List Nat),
      c < 128 → (∃ d ∈ (c :: s), 128 ≤ d) → 5 < byteLen (c :: s) →
      c32_address_decode checksum (c :: s) = some (.error .InvalidCrockford32)) := by
  constructor
  · intro checksum s h
    exact c32_check_decode_nonascii checksum s h
  · intro checksum c s hc hex hlen
    have hnotle : ¬ byteLen (c :: s) ≤ 5 := by omega
    have hu : utf8Len c = 1 := utf8Len_ascii hc
    have hs : ∃ d ∈ s, 128 ≤ d := by
      obtain ⟨d, hd, hdge⟩ := hex
      rcases List.mem_cons.mp hd with rfl | hds
      · omega
      · exact ⟨d, hds, hdge⟩
    simp only [c32_address_decode, hnotle, if_false, hu, if_true]
    exact c32_check_decode_nonascii checksum s hs

/-- C8 amended witness: check decoding the one-character non-ASCII string
of U+03A9, and address decoding an S-prefixed string containing U+03A9
(byte length 7). -/
theorem claim_C8_witness :
    c32_check_decode fixedChecksum [937] = some (.error .InvalidCrockford32) ∧
    c32_address_decode fixedChecksum [83, 937, 937, 48, 48] =
      some (.error .InvalidCrockford32) := by
  constructor
  · exact claim_C8_amended.1 fixedChecksum [937] ⟨937, by decide, by decide⟩
  · exact claim_C8_amended.2 fixedChecksum 83 [937, 937, 48, 48] (by decide)
      ⟨937, by decide, by decide⟩ (by decide)

/-- C10: on ASCII input longer than five bytes, c32_address_decode never
looks at the first character beyond the length test: replacing it by any
other ASCII character gives the identical result, because the source
unconditionally strips the first byte before check decoding. -/
theorem claim_C10 :
    ∀ (c1 c2 : Nat) (t : List Nat) (checksum : ChecksumFn),
      c1 < 128 → c2 < 128 → (∀ c ∈ t, c < 128) → 5 < byteLen (c1 :: t) →
      c32_address_decode checksum (c1 :: t) = c32_address_decode checksum (c2 :: t) := by
  intro c1 c2 t checksum h1 h2 ht hlen
  have u1 : utf8Len c1 = 1 := utf8Len_ascii h1
  have u2 : utf8Len c2 = 1 := utf8Len_ascii h2
  have hb : byteLen (c2 :: t) = byteLen (c1 :: t) := by
    rw [byteLen_cons, byteLen_cons, u1, u2]
  have n1 : ¬ byteLen (c1 :: t) ≤ 5 := by omega
  have n2 : ¬ byteLen (c2 :: t) ≤ 5 := by omega
  simp only [c32_address_decode, n1, n2, if_false, u1, u2, if_true]

/-- C10 witness: a six-byte all-zero-digit tail decodes identically under
leading characters S and A (both runs end in the same BadChecksum error
of the fixed checksum function). -/
theorem claim_C10_witness :
    (∀ c ∈ [48, 48, 48, 48, 48], c < 128) ∧
    c32_address_decode fixedChecksum (83 :: [48, 48, 48, 48, 48]) =
      c32_address_decode fixedChecksum (65 :: [48, 48, 48, 48, 48]) := by
  constructor
  · decide
  · exact claim_C10 83 65 [48, 48, 48, 48, 48] fixedChecksum (by decide) (by decide)
      (by decide) (by decide)

/-- C6 counterexample: decoding the one-character string O is not the
same as decoding its normalization 0: the source counts the restored
leading zero bytes from the characters of the original string, so the O
input yields the empty byte vector while the normalized input yields a
single zero byte. -/
theorem claim_C6_counterexample :
    c32_decode [79] = .ok [] ∧
    c32_decode (c32_normalize [79]) = .ok [0] ∧
    c32_decode [79] ≠ c32_decode (c32_normalize [79]) := by
  refine ⟨?_, ?_, ?_⟩
  · decide
  · decide
  · decide

end StacksCore

namespace StacksCore

theorem encStep_invariant (res : List Nat) (c cb : Nat) (x : Nat) (hx : x < 256) (k : Nat)
    (hcb : c < 2 ^ cb) (hlt : cb < 5) (hd : ∀ d ∈ res, d < 32)
    (hbits : 5 * res.length + cb = 8 * k) :
    Nat.ofDigits 32 (encStep ⟨res, c, cb⟩ x).result
        + (encStep ⟨res, c, cb⟩ x).carry * 32 ^ (encStep ⟨res, c, cb⟩ x).result.length
      = (Nat.ofDigits 32 res + c * 32 ^ res.length) + 256 ^ k * x
    ∧ 5 * (encStep ⟨res, c, cb⟩ x).result.length + (encStep ⟨res, c, cb⟩ x).carry_bits
        = 8 * (k + 1)
    ∧ (encStep ⟨res, c, cb⟩ x).carry < 2 ^ (encStep ⟨res, c, cb⟩ x).carry_bits
    ∧ (encStep ⟨res, c, cb⟩ x).carry_bits < 5
    ∧ ∀ d ∈ (encStep ⟨res, c, cb⟩ x).result, d < 32 := by
  have h256 : (256 : ℕ) ^ k = 2 ^ (8 * k) := by
    rw [show (256 : ℕ) = 2 ^ 8 from rfl, ← pow_mul]
  have h32 : (32 : ℕ) ^ res.length = 2 ^ (5 * res.length) := by
    rw [show (32 : ℕ) = 2 ^ 5 from rfl, ← pow_mul]
  interval_cases cb
  all_goals simp only [encStep]
  all_goals norm_num
  · -- cb = 0: push one digit, new carry bits 3
    have hk : (256 : ℕ) ^ k = 32 ^ res.length := by
      rw [h256, ← hbits]
      simpa using h32.symm
    refine ⟨?_, by omega, by omega, ?_⟩
    · simp only [Nat.ofDigits_append, Nat.ofDigits_cons, Nat.ofDigits_nil, hk, pow_succ]
      have hxx : x % 32 + c + 32 * (x / 32) = c + x := by omega
      calc Nat.ofDigits 32 res + 32 ^ res.length * (x % 32 + c + 0)
            + x / 32 * (32 ^ res.length * 32)
          = Nat.ofDigits 32 res + 32 ^ res.length * (x % 32 + c + 32 * (x / 32)) := by ring
        _ = Nat.ofDigits 32 res + 32 ^ res.length * (c + x) := by rw [hxx]
        _ = Nat.ofDigits 32 res + c * 32 ^ res.length + 32 ^ res.length * x := by ring
    · intro d hd2
      rcases hd2 with h | h
      · exact hd d h
      · omega
  · -- cb = 1: push one digit, new carry bits 4
    have hk : (256 : ℕ) ^ k = 32 ^ res.length * 2 := by
      rw [h256, ← hbits, pow_succ, ← h32]
    refine ⟨?_, by omega, by omega, ?_⟩
    · have hxxz : ((x % 16 : ℕ) : ℤ) * 2 + (c : ℤ) + 32 * ((x / 16 : ℕ) : ℤ)
          = (c : ℤ) + 2 * (x : ℤ) := by
        exact_mod_cast (by omega : x % 16 * 2 + c + 32 * (x / 16) = c + 2 * x)
      simp only [Nat.ofDigits_append, Nat.ofDigits_cons, Nat.ofDigits_nil, hk, pow_succ]
      zify
      push_cast
      push_cast at hxxz
      linear_combination ((32 : ℤ) ^ res.length) * hxxz
    · intro d hd2
      rcases hd2 with h | h
      · exact hd d h
      · omega
  · -- cb = 2: push two digits, new carry bits 0
    have hk : (256 : ℕ) ^ k = 32 ^ res.length * 4 := by
      rw [h256, ← hbits, pow_add, ← h32]
      norm_num
    refine ⟨?_, by omega, by omega, ?_⟩
    · have hxxz : ((x % 8 : ℕ) : ℤ) * 4 + (c : ℤ) + 32 * ((x / 8 % 32 : ℕ) : ℤ)
          + 1024 * ((x / 8 / 32 : ℕ) : ℤ) = (c : ℤ) + 4 * (x : ℤ) := by
        exact_mod_cast
          (by omega : x % 8 * 4 + c + 32 * (x / 8 % 32) + 1024 * (x / 8 / 32) = c + 4 * x)
      simp only [Nat.ofDigits_append, Nat.ofDigits_cons, Nat.ofDigits_nil, hk, pow_succ]
      zify
      push_cast
      push_cast at hxxz
      linear_combination ((32 : ℤ) ^ res.length) * hxxz
    · intro d hd2
      rcases hd2 with h | h | h
      · exact hd d h
      · omega
      · omega
  · -- cb = 3: push two digits, new carry bits 1
    have hk : (256 : ℕ) ^ k = 32 ^ res.length * 8 := by
      rw [h256, ← hbits, pow_add, ← h32]
      norm_num
    refine ⟨?_, by omega, by omega, ?_⟩
    · have hxxz : ((x % 4 : ℕ) : ℤ) * 8 + (c : ℤ) + 32 * ((x / 4 % 32 : ℕ) : ℤ)
          + 1024 * ((x / 4 / 32 : ℕ) : ℤ) = (c : ℤ) + 8 * (x : ℤ) := by
        exact_mod_cast
          (by omega : x % 4 * 8 + c + 32 * (x / 4 % 32) + 1024 * (x / 4 / 32) = c + 8 * x)
      simp only [Nat.ofDigits_append, Nat.ofDigits_cons, Nat.ofDigits_nil, hk, pow_succ]
      zify
      push_cast
      push_cast at hxxz
      linear_combination ((32 : ℤ) ^ res.length) * hxxz
    · intro d hd2
      rcases hd2 with h | h | h
      · exact hd d h
      · omega
      · omega
  · -- cb = 4: push two digits, new carry bits 2
    have hk : (256 : ℕ) ^ k = 32 ^ res.length * 16 := by
      rw [h256, ← hbits, pow_add, ← h32]
      norm_num
    refine ⟨?_, by omega, by omega, ?_⟩
    · have hxxz : ((x % 2 : ℕ) : ℤ) * 16 + (c : ℤ) + 32 * ((x / 2 % 32 : ℕ) : ℤ)
          + 1024 * ((x / 2 / 32 : ℕ) : ℤ) = (c : ℤ) + 16 * (x : ℤ) := by
        exact_mod_cast
          (by omega : x % 2 * 16 + c + 32 * (x / 2 % 32) + 1024 * (x / 2 / 32) = c + 16 * x)
      simp only [Nat.ofDigits_append, Nat.ofDigits_cons, Nat.ofDigits_nil, hk, pow_succ]
      zify
      push_cast
      push_cast at hxxz
      linear_combination ((32 : ℤ) ^ res.length) * hxxz
    · intro d hd2
      rcases hd2 with h | h | h
      · exact hd d h
      · omega
      · omega

theorem head?_dropWhile_false (p : Nat → Bool) : ∀ (l : List Nat) (x : Nat),
    (l.dropWhile p).head? = some x → p x = false := by
  intro l
  induction l with
  | nil => intro x hx; simp at hx
  | cons a t ih =>
    intro x hx
    rw [List.dropWhile_cons] at hx
    by_cases hp : p a
    · rw [if_pos hp] at hx
      exact ih x hx
    · rw [if_neg hp] at hx
      simp only [List.head?_cons, Option.some.injEq] at hx
      subst hx
      exact Bool.not_eq_true _ ▸ (by simpa using hp)

theorem mem_dropTrailingZeros {l : List Nat} {d : Nat} (h : d ∈ dropTrailingZeros l) :
    d ∈ l := by
  unfold dropTrailingZeros at h
  rw [List.mem_reverse] at h
  have := (List.dropWhile_sublist (fun v => v == 0)).mem h
  exact List.mem_reverse.mp this

theorem getLast_dropTrailingZeros_ne_zero (l : List Nat)
    (h : dropTrailingZeros l ≠ []) : (dropTrailingZeros l).getLast h ≠ 0 := by
  intro hc
  have h1 : (dropTrailingZeros l).getLast? = some 0 := by
    rw [List.getLast?_eq_getLast _ h, hc]
  unfold dropTrailingZeros at h1
  rw [List.getLast?_reverse] at h1
  have h2 := head?_dropWhile_false (fun v => v == 0) l.reverse 0 h1
  simp at h2

theorem dtz_decomp (l : List Nat) :
    l = dropTrailingZeros l
        ++ List.replicate (l.reverse.takeWhile (fun v => v == 0)).length 0 := by
  have hrep : l.reverse.takeWhile (fun v => v == 0)
      = List.replicate (l.reverse.takeWhile (fun v => v == 0)).length 0 :=
    List.eq_replicate_of_mem (fun b hb => by simpa using List.mem_takeWhile_imp hb)
  conv_lhs => rw [← List.reverse_reverse l,
    ← List.takeWhile_append_dropWhile (fun v => v == 0) l.reverse]
  rw [List.reverse_append]
  unfold dropTrailingZeros
  congr 1
  conv_lhs => rw [hrep]
  exact List.reverse_replicate _ _

theorem ofDigits_replicate_zero (b : ℕ) : ∀ j, Nat.ofDigits b (List.replicate j 0) = 0 := by
  intro j
  induction j with
  | zero => rfl
  | succ n ih => simp [List.replicate, Nat.ofDigits_cons, ih]

theorem ofDigits_dropTrailingZeros (b : ℕ) (l : List Nat) :
    Nat.ofDigits b (dropTrailingZeros l) = Nat.ofDigits b l := by
  conv_rhs => rw [dtz_decomp l]
  rw [Nat.ofDigits_append, ofDigits_replicate_zero, mul_zero, add_zero]

theorem dropTrailingZeros_eq_digits (b : ℕ) (hb : 1 < b) (l : List Nat)
    (hl : ∀ d ∈ l, d < b) :
    dropTrailingZeros l = Nat.digits b (Nat.ofDigits b l) := by
  rw [← ofDigits_dropTrailingZeros b l]
  exact (Nat.digits_ofDigits b hb _
    (fun d hd => hl d (mem_dropTrailingZeros hd))
    (getLast_dropTrailingZeros_ne_zero l)).symm

theorem encLoop_invariant (done : List Nat) (h : ∀ b ∈ done, b < 256) :
    Nat.ofDigits 32 (done.foldl encStep ⟨[], 0, 0⟩).result
        + (done.foldl encStep ⟨[], 0, 0⟩).carry
            * 32 ^ (done.foldl encStep ⟨[], 0, 0⟩).result.length
      = Nat.ofDigits 256 done
    ∧ 5 * (done.foldl encStep ⟨[], 0, 0⟩).result.length
        + (done.foldl encStep ⟨[], 0, 0⟩).carry_bits = 8 * done.length
    ∧ (done.foldl encStep ⟨[], 0, 0⟩).carry
        < 2 ^ (done.foldl encStep ⟨[], 0, 0⟩).carry_bits
    ∧ (done.foldl encStep ⟨[], 0, 0⟩).carry_bits < 5
    ∧ ∀ d ∈ (done.foldl encStep ⟨[], 0, 0⟩).result, d < 32 := by
  induction done using List.reverseRecOn with
  | nil => simp [Nat.ofDigits_nil]
  | append_singleton xs x ih =>
    have hxs : ∀ b ∈ xs, b < 256 := fun b hb => h b (List.mem_append_left _ hb)
    have hx : x < 256 := h x (List.mem_append_right _ (List.mem_singleton_self x))
    obtain ⟨ihv, ihb, ihc, ihl, ihd⟩ := ih hxs
    rw [List.foldl_append]
    simp only [List.foldl_cons, List.foldl_nil]
    set st := xs.foldl encStep ⟨[], 0, 0⟩ with hst
    have key := encStep_invariant st.result st.carry st.carry_bits x hx xs.length
      ihc ihl ihd ihb
    obtain ⟨kv, kb, kc, kl, kd⟩ := key
    refine ⟨?_, ?_, kc, kl, kd⟩
    · rw [kv, ihv, Nat.ofDigits_append, Nat.ofDigits_singleton]
    · rw [kb]
      simp

theorem encFull_spec (input : List Nat) (h : ∀ b ∈ input, b < 256) :
    Nat.ofDigits 32
        (if 0 < (input.reverse.foldl encStep ⟨[], 0, 0⟩).carry_bits
         then (input.reverse.foldl encStep ⟨[], 0, 0⟩).result
            ++ [(input.reverse.foldl encStep ⟨[], 0, 0⟩).carry]
         else (input.reverse.foldl encStep ⟨[], 0, 0⟩).result)
      = Nat.ofDigits 256 input.reverse
    ∧ ∀ d ∈ (if 0 < (input.reverse.foldl encStep ⟨[], 0, 0⟩).carry_bits
         then (input.reverse.foldl encStep ⟨[], 0, 0⟩).result
            ++ [(input.reverse.foldl encStep ⟨[], 0, 0⟩).carry]
         else (input.reverse.foldl encStep ⟨[], 0, 0⟩).result), d < 32 := by
  have hrev : ∀ b ∈ input.reverse, b < 256 := fun b hb => h b (List.mem_reverse.mp hb)
  obtain ⟨hv, hb, hc, hl, hd⟩ := encLoop_invariant input.reverse hrev
  set st := input.reverse.foldl encStep ⟨[], 0, 0⟩ with hst
  by_cases hcb : 0 < st.carry_bits
  · simp only [if_pos hcb]
    constructor
    · rw [Nat.ofDigits_append, Nat.ofDigits_singleton]
      rw [Nat.mul_comm]
      exact hv
    · intro d hd2
      rcases List.mem_append.mp hd2 with h1 | h1
      · exact hd d h1
      · have : d = st.carry := by simpa using h1
        subst this
        have : (2 : ℕ) ^ st.carry_bits ≤ 2 ^ 4 :=
          Nat.pow_le_pow_right (by norm_num) (by omega)
        omega
  · simp only [if_neg hcb]
    have hcb0 : st.carry_bits = 0 := by omega
    have hc0 : st.carry = 0 := by
      rw [hcb0] at hc
      omega
    constructor
    · rw [hc0] at hv
      simpa using hv
    · exact hd

theorem c32_encode_digits_spec (input : List Nat) (h : ∀ b ∈ input, b < 256) :
    c32_encode_digits input
      = List.replicate (input.takeWhile (fun v => v == 0)).length 0
          ++ (Nat.digits 32 (Nat.ofDigits 256 input.reverse)).reverse := by
  obtain ⟨hv, hd⟩ := encFull_spec input h
  unfold c32_encode_digits
  rw [List.reverse_append, List.reverse_replicate]
  congr 1
  rw [dropTrailingZeros_eq_digits 32 (by norm_num) _ hd, hv]

theorem c32_encode_spec (input : List Nat) (h : ∀ b ∈ input, b < 256) :
    c32_encode input
      = List.replicate (input.takeWhile (fun v => v == 0)).length 48
          ++ ((Nat.digits 32 (Nat.ofDigits 256 input.reverse)).reverse).map c32CharAt := by
  unfold c32_encode
  rw [c32_encode_digits_spec input h, List.map_append]
  congr 1
  rw [List.map_replicate]
  rfl

theorem decStep_invariant (res : List Nat) (c cb : Nat) (d : Nat) (hx : d < 32) (k : Nat)
    (hcb : c < 2 ^ cb) (hlt : cb < 8) (hd : ∀ b ∈ res, b < 256)
    (hbits : 8 * res.length + cb = 5 * k) :
    Nat.ofDigits 256 (decStep ⟨res, c, cb⟩ d).result
        + (decStep ⟨res, c, cb⟩ d).carry * 256 ^ (decStep ⟨res, c, cb⟩ d).result.length
      = (Nat.ofDigits 256 res + c * 256 ^ res.length) + 32 ^ k * d
    ∧ 8 * (decStep ⟨res, c, cb⟩ d).result.length + (decStep ⟨res, c, cb⟩ d).carry_bits
        = 5 * (k + 1)
    ∧ (decStep ⟨res, c, cb⟩ d).carry < 2 ^ (decStep ⟨res, c, cb⟩ d).carry_bits
    ∧ (decStep ⟨res, c, cb⟩ d).carry_bits < 8
    ∧ ∀ b ∈ (decStep ⟨res, c, cb⟩ d).result, b < 256 := by
  have h32k : (32 : ℕ) ^ k = 2 ^ (5 * k) := by
    rw [show (32 : ℕ) = 2 ^ 5 from rfl, ← pow_mul]
  have h256m : (256 : ℕ) ^ res.length = 2 ^ (8 * res.length) := by
    rw [show (256 : ℕ) = 2 ^ 8 from rfl, ← pow_mul]
  interval_cases cb
  all_goals simp only [decStep]
  all_goals norm_num
  · -- cb = 0: no byte emitted, carry grows by five bits
    have hk : (32 : ℕ) ^ k = 256 ^ res.length := by
      rw [h32k, ← hbits]
      simpa using h256m.symm
    refine ⟨?_, by omega, by omega, ?_⟩
    · rw [hk]
      ring
    · exact hd
  · -- cb = 1: no byte emitted, carry grows by five bits
    have hk : (32 : ℕ) ^ k = 256 ^ res.length * 2 := by
      rw [h32k, ← hbits, pow_add, ← h256m]
      norm_num
    refine ⟨?_, by omega, by omega, ?_⟩
    · rw [hk]
      ring
    · exact hd
  · -- cb = 2: no byte emitted, carry grows by five bits
    have hk : (32 : ℕ) ^ k = 256 ^ res.length * 4 := by
      rw [h32k, ← hbits, pow_add, ← h256m]
      norm_num
    refine ⟨?_, by omega, by omega, ?_⟩
    · rw [hk]
      ring
    · exact hd
  · -- cb = 3: one byte emitted
    have hk : (32 : ℕ) ^ k = 256 ^ res.length * 8 := by
      rw [h32k, ← hbits, pow_add, ← h256m]
      norm_num
    refine ⟨?_, by omega, by omega, ?_⟩
    · have hxxz : (((c + d * 8) % 256 : ℕ) : ℤ) + 256 * (((c + d * 8) / 256 : ℕ) : ℤ)
          = (c : ℤ) + 8 * (d : ℤ) := by
        exact_mod_cast (by omega : (c + d * 8) % 256 + 256 * ((c + d * 8) / 256)
          = c + 8 * d)
      simp only [Nat.ofDigits_append, Nat.ofDigits_cons, Nat.ofDigits_nil, hk, pow_succ]
      zify
      push_cast
      push_cast at hxxz
      linear_combination ((256 : ℤ) ^ res.length) * hxxz
    · intro b hb2
      rcases hb2 with h1 | h1
      · exact hd b h1
      · omega
  · -- cb = 4: one byte emitted
    have hk : (32 : ℕ) ^ k = 256 ^ res.length * 16 := by
      rw [h32k, ← hbits, pow_add, ← h256m]
      norm_num
    refine ⟨?_, by omega, by omega, ?_⟩
    · have hxxz : (((c + d * 16) % 256 : ℕ) : ℤ) + 256 * (((c + d * 16) / 256 : ℕ) : ℤ)
          = (c : ℤ) + 16 * (d : ℤ) := by
        exact_mod_cast (by omega : (c + d * 16) % 256 + 256 * ((c + d * 16) / 256)
          = c + 16 * d)
      simp only [Nat.ofDigits_append, Nat.ofDigits_cons, Nat.ofDigits_nil, hk, pow_succ]
      zify
      push_cast
      push_cast at hxxz
      linear_combination ((256 : ℤ) ^ res.length) * hxxz
    · intro b hb2
      rcases hb2 with h1 | h1
      · exact hd b h1
      · omega
  · -- cb = 5: one byte emitted
    have hk : (32 : ℕ) ^ k = 256 ^ res.length * 32 := by
      rw [h32k, ← hbits, pow_add, ← h256m]
      norm_num
    refine ⟨?_, by omega, by omega, ?_⟩
    · have hxxz : (((c + d * 32) % 256 : ℕ) : ℤ) + 256 * (((c + d * 32) / 256 : ℕ) : ℤ)
          = (c : ℤ) + 32 * (d : ℤ) := by
        exact_mod_cast (by omega : (c + d * 32) % 256 + 256 * ((c + d * 32) / 256)
          = c + 32 * d)
      simp only [Nat.ofDigits_append, Nat.ofDigits_cons, Nat.ofDigits_nil, hk, pow_succ]
      zify
      push_cast
      push_cast at hxxz
      linear_combination ((256 : ℤ) ^ res.length) * hxxz
    · intro b hb2
      rcases hb2 with h1 | h1
      · exact hd b h1
      · omega
  · -- cb = 6: one byte emitted
    have hk : (32 : ℕ) ^ k = 256 ^ res.length * 64 := by
      rw [h32k, ← hbits, pow_add, ← h256m]
      norm_num
    refine ⟨?_, by omega, by omega, ?_⟩
    · have hxxz : (((c + d * 64) % 256 : ℕ) : ℤ) + 256 * (((c + d * 64) / 256 : ℕ) : ℤ)
          = (c : ℤ) + 64 * (d : ℤ) := by
        exact_mod_cast (by omega : (c + d * 64) % 256 + 256 * ((c + d * 64) / 256)
          = c + 64 * d)
      simp only [Nat.ofDigits_append, Nat.ofDigits_cons, Nat.ofDigits_nil, hk, pow_succ]
      zify
      push_cast
      push_cast at hxxz
      linear_combination ((256 : ℤ) ^ res.length) * hxxz
    · intro b hb2
      rcases hb2 with h1 | h1
      · exact hd b h1
      · omega
  · -- cb = 7: one byte emitted
    have hk : (32 : ℕ) ^ k = 256 ^ res.length * 128 := by
      rw [h32k, ← hbits, pow_add, ← h256m]
      norm_num
    refine ⟨?_, by omega, by omega, ?_⟩
    · have hxxz : (((c + d * 128) % 256 : ℕ) : ℤ) + 256 * (((c + d * 128) / 256 : ℕ) : ℤ)
          = (c : ℤ) + 128 * (d : ℤ) := by
        exact_mod_cast (by omega : (c + d * 128) % 256 + 256 * ((c + d * 128) / 256)
          = c + 128 * d)
      simp only [Nat.ofDigits_append, Nat.ofDigits_cons, Nat.ofDigits_nil, hk, pow_succ]
      zify
      push_cast
      push_cast at hxxz
      linear_combination ((256 : ℤ) ^ res.length) * hxxz
    · intro b hb2
      rcases hb2 with h1 | h1
      · exact hd b h1
      · omega

theorem decLoop_invariant (done : List Nat) (h : ∀ d ∈ done, d < 32) :
    Nat.ofDigits 256 (done.foldl decStep ⟨[], 0, 0⟩).result
        + (done.foldl decStep ⟨[], 0, 0⟩).carry
            * 256 ^ (done.foldl decStep ⟨[], 0, 0⟩).result.length
      = Nat.ofDigits 32 done
    ∧ 8 * (done.foldl decStep ⟨[], 0, 0⟩).result.length
        + (done.foldl decStep ⟨[], 0, 0⟩).carry_bits = 5 * done.length
    ∧ (done.foldl decStep ⟨[], 0, 0⟩).carry
        < 2 ^ (done.foldl decStep ⟨[], 0, 0⟩).carry_bits
    ∧ (done.foldl decStep ⟨[], 0, 0⟩).carry_bits < 8
    ∧ ∀ b ∈ (done.foldl decStep ⟨[], 0, 0⟩).result, b < 256 := by
  induction done using List.reverseRecOn with
  | nil => simp [Nat.ofDigits_nil]
  | append_singleton xs x ih =>
    have hxs : ∀ d ∈ xs, d < 32 := fun d hd => h d (List.mem_append_left _ hd)
    have hx : x < 32 := h x (List.mem_append_right _ (List.mem_singleton_self x))
    obtain ⟨ihv, ihb, ihc, ihl, ihd⟩ := ih hxs
    rw [List.foldl_append]
    simp only [List.foldl_cons, List.foldl_nil]
    set st := xs.foldl decStep ⟨[], 0, 0⟩ with hst
    have key := decStep_invariant st.result st.carry st.carry_bits x hx xs.length
      ihc ihl ihd ihb
    obtain ⟨kv, kb, kc, kl, kd⟩ := key
    refine ⟨?_, ?_, kc, kl, kd⟩
    · rw [kv, ihv, Nat.ofDigits_append, Nat.ofDigits_singleton]
    · rw [kb]
      simp

theorem decFull_spec (done : List Nat) (h : ∀ d ∈ done, d < 32) :
    Nat.ofDigits 256
        (if 0 < (done.foldl decStep ⟨[], 0, 0⟩).carry_bits
         then (done.foldl decStep ⟨[], 0, 0⟩).result
            ++ [(done.foldl decStep ⟨[], 0, 0⟩).carry]
         else (done.foldl decStep ⟨[], 0, 0⟩).result)
      = Nat.ofDigits 32 done
    ∧ ∀ b ∈ (if 0 < (done.foldl decStep ⟨[], 0, 0⟩).carry_bits
         then (done.foldl decStep ⟨[], 0, 0⟩).result
            ++ [(done.foldl decStep ⟨[], 0, 0⟩).carry]
         else (done.foldl decStep ⟨[], 0, 0⟩).result), b < 256 := by
  obtain ⟨hv, hb, hc, hl, hd⟩ := decLoop_invariant done h
  set st := done.foldl decStep ⟨[], 0, 0⟩ with hst
  by_cases hcb : 0 < st.carry_bits
  · simp only [if_pos hcb]
    constructor
    · rw [Nat.ofDigits_append, Nat.ofDigits_singleton, Nat.mul_comm]
      exact hv
    · intro b hb2
      rcases List.mem_append.mp hb2 with h1 | h1
      · exact hd b h1
      · have : b = st.carry := by simpa using h1
        subst this
        have : (2 : ℕ) ^ st.carry_bits ≤ 2 ^ 7 :=
          Nat.pow_le_pow_right (by norm_num) (by omega)
        omega
  · simp only [if_neg hcb]
    have hcb0 : st.carry_bits = 0 := by omega
    have hc0 : st.carry = 0 := by
      rw [hcb0] at hc
      omega
    constructor
    · rw [hc0] at hv
      simpa using hv
    · exact hd

theorem c32CharAt_lt_128 : ∀ d, d < 32 → c32CharAt d < 128 := by decide

theorem normChar_c32CharAt : ∀ d, d < 32 → normChar (c32CharAt d) = c32CharAt d := by decide

theorem c32Find_c32CharAt : ∀ d, d < 32 → c32Find (c32CharAt d) = some d := by decide

theorem c32CharAt_ne_48 : ∀ d, d < 32 → 0 < d → ¬ c32CharAt d = 48 := by decide

theorem c32_decode_good (s : List Nat) (L : List Nat)
    (hascii : isAsciiStr s = true)
    (hopts : (c32_normalize s).reverse.map c32Find = List.map some L) :
    c32_decode s = .ok ((dropTrailingZeros
        (if 0 < (L.foldl decStep ⟨[], 0, 0⟩).carry_bits
         then (L.foldl decStep ⟨[], 0, 0⟩).result ++ [(L.foldl decStep ⟨[], 0, 0⟩).carry]
         else (L.foldl decStep ⟨[], 0, 0⟩).result)
      ++ List.replicate (s.takeWhile (fun c => c == 48)).length 0).reverse) := by
  have hfm : List.filterMap (id ∘ some) L = L := List.filterMap_some L
  unfold c32_decode
  rw [hascii]
  rw [if_neg (by simp)]
  dsimp only
  rw [hopts, List.filterMap_map, hfm]
  rw [if_neg (by simp)]

theorem takeWhile_replicate_append (p : Nat → Bool) (a : Nat) (hp : p a = true) :
    ∀ (n : Nat) (rest : List Nat),
      List.takeWhile p (List.replicate n a ++ rest)
        = List.replicate n a ++ List.takeWhile p rest := by
  intro n
  induction n with
  | zero => intro rest; simp
  | succ m ih =>
    intro rest
    simp only [List.replicate_succ, List.cons_append, List.takeWhile_cons, hp, if_true]
    rw [ih rest]

theorem takeWhile_c32CharAt_eq_nil (L : List Nat) (hlt : ∀ d ∈ L, d < 32)
    (hhd : ∀ x ∈ L.head?, 0 < x) :
    List.takeWhile (fun c => c == 48) (L.map c32CharAt) = [] := by
  cases L with
  | nil => rfl
  | cons a t =>
    simp only [List.map_cons, List.takeWhile_cons]
    have ha : 0 < a := hhd a rfl
    have halt : a < 32 := hlt a (List.mem_cons_self _ _)
    rw [if_neg (by simpa using c32CharAt_ne_48 a halt ha)]

theorem c32_encode_ascii (input : List Nat) (h : ∀ b ∈ input, b < 256) :
    isAsciiStr (c32_encode input) = true := by
  have hE := c32_encode_spec input h
  have hDlt : ∀ d ∈ (Nat.digits 32 (Nat.ofDigits 256 input.reverse)).reverse, d < 32 :=
    fun d hd => Nat.digits_lt_base (by norm_num) (List.mem_reverse.mp hd)
  rw [hE]
  simp only [isAsciiStr, List.all_eq_true, decide_eq_true_eq]
  intro c hc
  rcases List.mem_append.mp hc with h1 | h1
  · rw [List.eq_of_mem_replicate h1]
    norm_num
  · obtain ⟨d, hd, rfl⟩ := List.mem_map.mp h1
    exact c32CharAt_lt_128 d (hDlt d hd)

theorem c32_normalize_c32_encode (input : List Nat) (h : ∀ b ∈ input, b < 256) :
    c32_normalize (c32_encode input) = c32_encode input := by
  have hE := c32_encode_spec input h
  have hDlt : ∀ d ∈ (Nat.digits 32 (Nat.ofDigits 256 input.reverse)).reverse, d < 32 :=
    fun d hd => Nat.digits_lt_base (by norm_num) (List.mem_reverse.mp hd)
  rw [hE]
  unfold c32_normalize
  rw [List.map_append, List.map_map]
  congr 1
  · rw [List.map_replicate]
    congr 1
  · exact List.map_congr_left (fun d hd => by
      simpa [Function.comp] using normChar_c32CharAt d (hDlt d hd))

theorem c32_decode_c32_encode (input : List Nat) (h : ∀ b ∈ input, b < 256) :
    c32_decode (c32_encode input) = .ok input := by
  set N := Nat.ofDigits 256 input.reverse with hN
  set z := (input.takeWhile (fun v => v == 0)).length with hz
  set D := (Nat.digits 32 N).reverse with hD
  have hE : c32_encode input = List.replicate z 48 ++ D.map c32CharAt :=
    c32_encode_spec input h
  have hDlt : ∀ d ∈ D, d < 32 := fun d hd =>
    Nat.digits_lt_base (by norm_num) (List.mem_reverse.mp hd)
  have hascii : isAsciiStr (c32_encode input) = true := c32_encode_ascii input h
  have hnorm : c32_normalize (c32_encode input) = c32_encode input :=
    c32_normalize_c32_encode input h
  -- the digit options are all valid
  have hopts : (c32_normalize (c32_encode input)).reverse.map c32Find
      = List.map some (D.reverse ++ List.replicate z 0) := by
    rw [hnorm, hE, List.reverse_append, List.reverse_replicate, ← List.map_reverse,
      List.map_append, List.map_map, List.map_replicate, List.map_append,
      List.map_replicate]
    congr 1
    exact List.map_congr_left (fun d hd => by
      simpa [Function.comp] using c32Find_c32CharAt d (hDlt d (List.mem_reverse.mp hd)))
  have hgood := c32_decode_good (c32_encode input) (D.reverse ++ List.replicate z 0)
    hascii hopts
  -- the digit list fed to the loop and its value
  have hLlt : ∀ d ∈ D.reverse ++ List.replicate z 0, d < 32 := by
    intro d hd
    rcases List.mem_append.mp hd with h1 | h1
    · exact hDlt d (List.mem_reverse.mp h1)
    · rw [List.eq_of_mem_replicate h1]
      norm_num
  have hLval : Nat.ofDigits 32 (D.reverse ++ List.replicate z 0) = N := by
    rw [Nat.ofDigits_append, ofDigits_replicate_zero, mul_zero, add_zero, hD,
      List.reverse_reverse, Nat.ofDigits_digits]
  obtain ⟨hBval, hBlt⟩ := decFull_spec (D.reverse ++ List.replicate z 0) hLlt
  rw [hLval] at hBval
  -- the stripped byte accumulator is the base 256 digit list of N
  have hdtz : dropTrailingZeros
      (if 0 < ((D.reverse ++ List.replicate z 0).foldl decStep ⟨[], 0, 0⟩).carry_bits
       then ((D.reverse ++ List.replicate z 0).foldl decStep ⟨[], 0, 0⟩).result
          ++ [((D.reverse ++ List.replicate z 0).foldl decStep ⟨[], 0, 0⟩).carry]
       else ((D.reverse ++ List.replicate z 0).foldl decStep ⟨[], 0, 0⟩).result)
      = Nat.digits 256 N := by
    rw [dropTrailingZeros_eq_digits 256 (by norm_num) _ hBlt, hBval]
  -- the leading zero characters of the encoding
  have hcount : ((c32_encode input).takeWhile (fun c => c == 48)).length = z := by
    rw [hE, takeWhile_replicate_append (fun c => c == 48) 48 (by decide) z]
    by_cases hN0 : N = 0
    · have : D = [] := by
        rw [hD, hN0]
        simp
      rw [this]
      simp
    · rw [takeWhile_c32CharAt_eq_nil D hDlt ?_]
      · simp
      · intro x hx
        have hne : Nat.digits 32 N ≠ [] := Nat.digits_ne_nil_iff_ne_zero.mpr hN0
        rw [hD, List.head?_reverse, List.getLast?_eq_getLast _ hne] at hx
        have h2 := Nat.getLast_digit_ne_zero 32 hN0
        have h3 : (Nat.digits 32 N).getLast hne = x := Option.some.inj (Option.mem_def.mp hx)
        omega
  rw [hgood, hdtz, hcount]
  -- input decomposes as leading zeros plus its nonzero suffix
  have htw : input.takeWhile (fun v => v == 0) = List.replicate z 0 := by
    rw [hz]
    exact List.eq_replicate_of_mem (fun b hb => by
      simpa using List.mem_takeWhile_imp hb)
  have hinput : input = List.replicate z 0 ++ input.dropWhile (fun v => v == 0) := by
    conv_lhs => rw [← List.takeWhile_append_dropWhile (fun v => v == 0) input]
    rw [htw]
  by_cases hN0 : N = 0
  · -- all bytes are zero
    have hall : ∀ b ∈ input, b = 0 := by
      intro b hb
      have hz2 : Nat.ofDigits 256 input.reverse = 0 := by
        rw [← hN]
        exact hN0
      exact Nat.digits_zero_of_eq_zero (by norm_num) hz2 b (List.mem_reverse.mpr hb)
    have hSnil : input.dropWhile (fun v => v == 0) = [] := by
      rw [List.dropWhile_eq_nil_iff]
      intro x hx
      simpa using hall x hx
    rw [hN0]
    simp only [Nat.digits_zero, List.nil_append, List.reverse_replicate]
    congr 1
    rw [hinput, hSnil, List.append_nil]
  · -- nonzero suffix
    set S := input.dropWhile (fun v => v == 0) with hS
    have hSne : S ≠ [] := by
      intro hnil
      apply hN0
      rw [hN, hinput, hnil, List.append_nil, List.reverse_replicate]
      exact ofDigits_replicate_zero 256 z
    have hSval : Nat.ofDigits 256 S.reverse = N := by
      rw [hN]
      conv_rhs => rw [hinput]
      rw [List.reverse_append, List.reverse_replicate, Nat.ofDigits_append,
        ofDigits_replicate_zero, mul_zero, add_zero]
    have hSlt : ∀ b ∈ S.reverse, b < 256 := by
      intro b hb
      have h1 : b ∈ S := List.mem_reverse.mp hb
      have h2 : b ∈ input := (List.dropWhile_sublist (fun v => v == 0)).mem h1
      exact h b h2
    have hShead : ∀ (hne : S.reverse ≠ []), S.reverse.getLast hne ≠ 0 := by
      intro hne hc
      have h1 : S.reverse.getLast? = some 0 := by
        rw [List.getLast?_eq_getLast _ hne, hc]
      rw [List.getLast?_reverse] at h1
      have h2 : S.head? = some 0 := h1
      have h3 := head?_dropWhile_false (fun v => v == 0) input 0 (hS ▸ h2)
      simp at h3
    have hdig : Nat.digits 256 N = S.reverse := by
      rw [← hSval]
      exact Nat.digits_ofDigits 256 (by norm_num) S.reverse hSlt hShead
    rw [hdig, List.reverse_append, List.reverse_replicate, List.reverse_reverse]
    exact congrArg Except.ok hinput.symm

theorem c32_decode_single : ∀ v, v < 32 → c32_decode [c32CharAt v] = .ok [v] := by decide

theorem byteLen_ascii (s : List Nat) (h : ∀ c ∈ s, c < 128) : byteLen s = s.length := by
  induction s with
  | nil => rfl
  | cons a t ih =>
    rw [byteLen_cons, utf8Len_ascii (h a (List.mem_cons_self _ _)),
      ih (fun c hc => h c (List.mem_cons_of_mem _ hc)), List.length_cons]
    omega

theorem digits_length_anti (b b' N : Nat) (hb : 1 < b) (hbb : b ≤ b') :
    (Nat.digits b' N).length ≤ (Nat.digits b N).length := by
  have hb' : 1 < b' := lt_of_lt_of_le hb hbb
  by_cases hN : N = 0
  · subst hN
    simp
  · by_contra hcon
    push_neg at hcon
    have hlenb' : 1 ≤ (Nat.digits b' N).length := by
      have : Nat.digits b' N ≠ [] := Nat.digits_ne_nil_iff_ne_zero.mpr hN
      cases h2 : Nat.digits b' N with
      | nil => exact absurd h2 this
      | cons a t => simp [h2]
    have h1 : N < b ^ (Nat.digits b N).length := Nat.lt_base_pow_length_digits hb
    have h2 : b ^ (Nat.digits b N).length ≤ b' ^ (Nat.digits b N).length :=
      Nat.pow_le_pow_left hbb _
    have h3 : b' ^ (Nat.digits b N).length ≤ b' ^ ((Nat.digits b' N).length - 1) :=
      Nat.pow_le_pow_right (by omega) (by omega)
    have h4 : b' ^ (Nat.digits b' N).length ≤ b' * N :=
      Nat.base_pow_length_digits_le b' N hb' hN
    have h5 : b' ^ (Nat.digits b' N).length
        = b' * b' ^ ((Nat.digits b' N).length - 1) := by
      rw [← pow_succ']
      congr 1
      omega
    have h6 : b' ^ ((Nat.digits b' N).length - 1) ≤ N := by
      rw [h5] at h4
      exact Nat.le_of_mul_le_mul_left h4 (by omega)
    omega

theorem length_c32_encode (input : List Nat) (h : ∀ b ∈ input, b < 256) :
    input.length ≤ (c32_encode input).length := by
  rw [c32_encode_spec input h]
  rw [List.length_append, List.length_replicate, List.length_map, List.length_reverse]
  set N := Nat.ofDigits 256 input.reverse with hN
  set z := (input.takeWhile (fun v => v == 0)).length with hz
  have htw : input.takeWhile (fun v => v == 0) = List.replicate z 0 := by
    rw [hz]
    exact List.eq_replicate_of_mem (fun b hb => by
      simpa using List.mem_takeWhile_imp hb)
  have hinput : input = List.replicate z 0 ++ input.dropWhile (fun v => v == 0) := by
    conv_lhs => rw [← List.takeWhile_append_dropWhile (fun v => v == 0) input]
    rw [htw]
  have hlen : input.length = z + (input.dropWhile (fun v => v == 0)).length := by
    conv_lhs => rw [hinput]
    simp
  by_cases hN0 : N = 0
  · -- every byte is zero, so the suffix is empty
    have hall : ∀ b ∈ input, b = 0 := by
      intro b hb
      have hz2 : Nat.ofDigits 256 input.reverse = 0 := by
        rw [← hN]
        exact hN0
      exact Nat.digits_zero_of_eq_zero (by norm_num) hz2 b (List.mem_reverse.mpr hb)
    have hSnil : input.dropWhile (fun v => v == 0) = [] := by
      rw [List.dropWhile_eq_nil_iff]
      intro x hx
      simpa using hall x hx
    rw [hlen, hSnil]
    simp
  · -- the base 256 digit list of N is the reversed nonzero suffix
    set S := input.dropWhile (fun v => v == 0) with hS
    have hSne : S ≠ [] := by
      intro hnil
      apply hN0
      rw [hN, hinput, hnil, List.append_nil, List.reverse_replicate]
      exact ofDigits_replicate_zero 256 z
    have hSval : Nat.ofDigits 256 S.reverse = N := by
      rw [hN]
      conv_rhs => rw [hinput]
      rw [List.reverse_append, List.reverse_replicate, Nat.ofDigits_append,
        ofDigits_replicate_zero, mul_zero, add_zero]
    have hSlt : ∀ b ∈ S.reverse, b < 256 := by
      intro b hb
      have h1 : b ∈ S := List.mem_reverse.mp hb
      have h2 : b ∈ input := (List.dropWhile_sublist (fun v => v == 0)).mem h1
      exact h b h2
    have hShead : ∀ (hne : S.reverse ≠ []), S.reverse.getLast hne ≠ 0 := by
      intro hne hc
      have h1 : S.reverse.getLast? = some 0 := by
        rw [List.getLast?_eq_getLast _ hne, hc]
      rw [List.getLast?_reverse] at h1
      have h3 := head?_dropWhile_false (fun v => v == 0) input 0 (hS ▸ h1)
      simp at h3
    have hdig : Nat.digits 256 N = S.reverse := by
      rw [← hSval]
      exact Nat.digits_ofDigits 256 (by norm_num) S.reverse hSlt hShead
    have hd256 : (Nat.digits 256 N).length = S.length := by
      rw [hdig, List.length_reverse]
    have hanti := digits_length_anti 32 256 N (by norm_num) (by norm_num)
    omega

/-- C4: the address codec round-trips.  For every checksum black box that
returns four bytes (as double SHA-256 does), every version below 32 and
every 20-byte payload, c32_address succeeds and c32_address_decode of the
produced address returns exactly the version and the payload (and in
particular does not hit either panic path). -/
theorem claim_C4 :
    ∀ (checksum : ChecksumFn),
      (∀ x, (checksum x).length = 4) →
      (∀ x, ∀ b ∈ checksum x, b < 256) →
      ∀ (version : Nat), version < 32 →
      ∀ (data : List Nat), data.length = 20 → (∀ b ∈ data, b < 256) →
      ∃ addr, c32_address checksum version data = .ok addr ∧
        c32_address_decode checksum addr = some (.ok (version, data)) := by
  intro checksum hcslen hcsb version hv data hdlen hdb
  set cs := checksum (version :: data) with hcs
  set body := c32_encode (data ++ cs) with hbody
  have henc : c32_address checksum version data = .ok (83 :: c32CharAt version :: body) := by
    unfold c32_address c32_check_encode
    rw [if_neg (by omega)]
    rfl
  refine ⟨83 :: c32CharAt version :: body, henc, ?_⟩
  have hdcs : ∀ b ∈ data ++ cs, b < 256 := by
    intro b hb
    rcases List.mem_append.mp hb with h1 | h1
    · exact hdb b h1
    · exact hcsb (version :: data) b h1
  have hlen24 : (data ++ cs).length = 24 := by
    rw [List.length_append, hdlen, hcs, hcslen (version :: data)]
  have hbodylen : 24 ≤ body.length := by
    have h1 := length_c32_encode (data ++ cs) hdcs
    rw [hlen24] at h1
    rw [hbody]
    exact h1
  have hbascii : isAsciiStr body = true := by
    rw [hbody]
    exact c32_encode_ascii _ hdcs
  have hbmem : ∀ c ∈ body, c < 128 := by
    intro c hc
    have := hbascii
    simp only [isAsciiStr, List.all_eq_true, decide_eq_true_eq] at this
    exact this c hc
  have hvchar : c32CharAt version < 128 := c32CharAt_lt_128 version hv
  have hbyte : byteLen (83 :: c32CharAt version :: body) = 2 + body.length := by
    rw [byteLen_ascii]
    · simp only [List.length_cons]
      omega
    · intro c hc
      rcases List.mem_cons.mp hc with rfl | hc2
      · norm_num
      · rcases List.mem_cons.mp hc2 with rfl | hc3
        · exact hvchar
        · exact hbmem c hc3
  unfold c32_address_decode
  rw [if_neg (by omega)]
  dsimp only
  rw [if_pos (show utf8Len 83 = 1 from rfl)]
  -- now the check decode of the version character and the body
  have hnorm2 : c32_normalize (c32CharAt version :: body) = c32CharAt version :: body := by
    unfold c32_normalize
    rw [List.map_cons]
    congr 1
    · exact normChar_c32CharAt version hv
    · rw [hbody]
      exact c32_normalize_c32_encode _ hdcs
  have hdecbody : c32_decode body = .ok (data ++ cs) := by
    rw [hbody]
    exact c32_decode_c32_encode _ hdcs
  have hascii2 : isAsciiStr (c32CharAt version :: body) = true := by
    simp only [isAsciiStr, List.all_eq_true, decide_eq_true_eq]
    intro c hc
    rcases List.mem_cons.mp hc with rfl | hc2
    · exact hvchar
    · exact hbmem c hc2
  unfold c32_check_decode
  rw [hascii2, if_neg (by simp)]
  rw [if_neg (by simp; omega)]
  rw [hnorm2]
  dsimp only
  rw [hdecbody]
  dsimp only
  rw [if_neg (by omega), hlen24]
  have htake : (data ++ cs).take (24 - 4) = data := by
    rw [show (24 - 4 : ℕ) = data.length from by omega]
    exact List.take_left data cs
  have hdrop : (data ++ cs).drop (24 - 4) = cs := by
    rw [show (24 - 4 : ℕ) = data.length from by omega]
    exact List.drop_left data cs
  rw [htake, hdrop]
  rw [c32_decode_single version hv]
  dsimp only
  rw [show ([version] ++ data : List Nat) = version :: data from rfl]
  rw [if_neg (by rw [← hcs]; simp)]

/-- C4 witness: version 0 with the all-zero 20-byte payload under a fixed
four-byte checksum function. -/
theorem claim_C4_witness :
    ∃ addr, c32_address fixedChecksum 0 (List.replicate 20 0) = .ok addr ∧
      c32_address_decode fixedChecksum addr = some (.ok (0, List.replicate 20 0)) := by
  have h1 : ∀ x : List Nat, (fixedChecksum x).length = 4 := fun _ => rfl
  have h2 : ∀ x : List Nat, ∀ b ∈ fixedChecksum x, b < 256 := by
    intro x
    show ∀ b ∈ [1, 2, 3, 4], b < 256
    decide
  exact claim_C4 fixedChecksum h1 h2 0 (by decide) (List.replicate 20 0) (by decide)
    (by decide)

theorem normChar_idem : ∀ c, normChar (normChar c) = normChar c := by
  intro c
  simp only [normChar]
  split_ifs <;> omega

theorem normChar_lt_128 {c : Nat} (h : c < 128) : normChar c < 128 := by
  simp only [normChar]
  split_ifs <;> omega

theorem normChar_eq_48_iff {c : Nat} (h79 : c ≠ 79) (h111 : c ≠ 111) :
    normChar c = 48 ↔ c = 48 := by
  simp only [normChar]
  split_ifs <;> omega

theorem takeWhile48_normalize : ∀ (s : List Nat), 79 ∉ s → 111 ∉ s →
    ((c32_normalize s).takeWhile (fun c => c == 48)).length
      = (s.takeWhile (fun c => c == 48)).length := by
  intro s
  induction s with
  | nil => intro _ _; rfl
  | cons c t ih =>
    intro h79 h111
    have hc79 : c ≠ 79 := fun hc => h79 (hc ▸ List.mem_cons_self _ _)
    have hc111 : c ≠ 111 := fun hc => h111 (hc ▸ List.mem_cons_self _ _)
    have ht79 : 79 ∉ t := fun ht => h79 (List.mem_cons_of_mem _ ht)
    have ht111 : 111 ∉ t := fun ht => h111 (List.mem_cons_of_mem _ ht)
    show ((normChar c :: c32_normalize t).takeWhile (fun c => c == 48)).length
        = ((c :: t).takeWhile (fun c => c == 48)).length
    rw [List.takeWhile_cons, List.takeWhile_cons]
    by_cases hc : c = 48
    · have hn : normChar c = 48 := (normChar_eq_48_iff hc79 hc111).mpr hc
      rw [if_pos (by simpa using hn), if_pos (by simpa using hc)]
      simp only [List.length_cons]
      rw [ih ht79 ht111]
    · have hn : ¬ normChar c = 48 := fun h => hc ((normChar_eq_48_iff hc79 hc111).mp h)
      rw [if_neg (by simpa using hn), if_neg (by simpa using hc)]

/-- C6 amended: c32 decoding is invariant under normalization for ASCII
strings containing no O (79) and no o (111): on those the character
confusable map changes no leading 0 character, so the digit passes and the
restored leading zero bytes agree.  (For strings with a leading O the
counterexample shows the results differ, because the source restores
leading zeros by scanning the original string for the character 0.) -/
theorem claim_C6_amended :
    ∀ (s : List Nat), (∀ c ∈ s, c < 128) → 79 ∉ s → 111 ∉ s →
      c32_decode s = c32_decode (c32_normalize s) := by
  intro s hlt h79 h111
  have hA : isAsciiStr s = true := by
    simp only [isAsciiStr, List.all_eq_true, decide_eq_true_eq]
    exact hlt
  have hA2 : isAsciiStr (c32_normalize s) = true := by
    simp only [isAsciiStr, List.all_eq_true, decide_eq_true_eq]
    intro c hc
    obtain ⟨d, hd, rfl⟩ := List.mem_map.mp hc
    exact normChar_lt_128 (hlt d hd)
  have hidem : c32_normalize (c32_normalize s) = c32_normalize s := by
    unfold c32_normalize
    rw [List.map_map]
    exact List.map_congr_left (fun c hc => by simpa [Function.comp] using normChar_idem c)
  have hcount := takeWhile48_normalize s h79 h111
  unfold c32_decode
  rw [hA, hA2]
  dsimp only
  rw [hidem, hcount]

/-- C6 amended witness: the ASCII string of S, 0, a (no O or o) decodes
the same before and after normalization. -/
theorem claim_C6_witness :
    c32_decode [83, 48, 97] = c32_decode (c32_normalize [83, 48, 97]) :=
  claim_C6_amended [83, 48, 97] (by decide) (by decide) (by decide)

end StacksCore
